import Mathlib

/-!
Shallow embedding of the core of the Tomyyy-1337/backgammon engine.

The repository contains two parallel implementations of the game core:
* an array-based one in `src/game.rs` (`Board` over `[i8; 24]`, an enum `Dice`),
  embedded below in namespace `Backgammon`;
* a bit-packed one in `src/backgammon/` (`Board` over two `u64` words, `Dice`
  packed into one byte), embedded below in namespace `Backgammon.Packed`.

Machine integers are modelled as `Nat`/`Int` with explicit masking where the
source relies on the width; Rust panics are modelled by `Option` (`none` =
panic); the `TinyVec`/`TinyVector` fixed-capacity buffers are modelled as
`List` (their capacity is never exceeded on boards satisfying the 15-checker
invariant, and no claim concerns the overflow panic); `f32` probability
literals are modelled as the exact decimal rationals they denote.
-/

namespace Backgammon

/-- Player tag (`src/game.rs`, also `src/backgammon/player.rs`). -/
inductive Player where
  | White
  | Black
deriving DecidableEq, Repr

/-- `Player::opposite`. -/
def Player.opposite : Player → Player
  | .White => .Black
  | .Black => .White

/-- `PositionEnum` from `src/game.rs`: `Home`, `Bar` or `Board(u8)` (a point
0..23).  The `Position` NonZeroU8 compression of `src/game.rs` is a pure
storage optimisation (`to_enum`/`from_enum` are mutually inverse) and is not
modelled separately for the array implementation. -/
inductive Pos where
  | Home
  | Bar
  | Point (n : Nat)
deriving DecidableEq, Repr

/-- `HalfMove` from `src/game.rs`: an ordered pair of positions.  The Rust
field names `from`/`to` are keywords in Lean and are rendered `src`/`dst`. -/
structure HalfMove where
  src : Pos
  dst : Pos
deriving DecidableEq, Repr

/-- `DiceUsage` from `src/game.rs`. -/
inductive DiceUsage where
  | BothAvailable
  | OnlyFirstAvailable
  | OnlySecondAvailable
  | BothUsed
deriving DecidableEq, Repr

/-- `Dice` from `src/game.rs`: either a double with a use counter, or two
distinct values with per-die usage flags. -/
inductive Dice where
  | Double (value used : Nat)
  | Single (value1 value2 : Nat) (used : DiceUsage)
deriving DecidableEq, Repr

/-- `Dice::new(a, b)`. -/
def Dice.new (a b : Nat) : Dice :=
  if a = b then .Double a 0 else .Single a b .BothAvailable

/-- `Dice::is_used`: every use consumed. -/
def Dice.is_used : Dice → Bool
  | .Double _ u => 4 ≤ u
  | .Single _ _ u => u = .BothUsed

/-- `Dice::get_unique_value`: the currently usable die values, first die
first. -/
def Dice.get_unique_value : Dice → List Nat
  | .Double v u => if u < 4 then [v] else []
  | .Single v1 v2 .BothAvailable => [v1, v2]
  | .Single v1 _ .OnlyFirstAvailable => [v1]
  | .Single _ v2 .OnlySecondAvailable => [v2]
  | .Single _ _ .BothUsed => []

/-- `Dice::use_die(die)`.  The two `panic!("Cannot use die that is already
used")` arms of the source are modelled as returning the dice unchanged; they
are unreachable for dice built by `Dice.new` (which never produces
`Single v v`) when the die comes from `get_unique_value`. -/
def Dice.use_die (d : Dice) (die : Nat) : Dice :=
  match d with
  | .Double v u => .Double v (u + 1)
  | .Single v1 v2 u =>
    if v1 = die then
      match u with
      | .BothAvailable => .Single v1 v2 .OnlySecondAvailable
      | .OnlyFirstAvailable => .Single v1 v2 .BothUsed
      | x => .Single v1 v2 x
    else if v2 = die then
      match u with
      | .BothAvailable => .Single v1 v2 .OnlyFirstAvailable
      | .OnlySecondAvailable => .Single v1 v2 .BothUsed
      | x => .Single v1 v2 x
    else .Single v1 v2 u

/-- `Dice::ALL` from `src/game.rs` (21 entries). -/
def Dice.ALL : List Dice :=
  [Dice.new 1 1, Dice.new 1 2, Dice.new 1 3, Dice.new 1 4, Dice.new 1 5, Dice.new 1 6,
   Dice.new 2 2, Dice.new 2 3, Dice.new 2 4, Dice.new 2 5, Dice.new 2 6,
   Dice.new 3 3, Dice.new 3 4, Dice.new 3 5, Dice.new 3 6,
   Dice.new 4 4, Dice.new 4 5, Dice.new 4 6,
   Dice.new 5 5, Dice.new 5 6,
   Dice.new 6 6]

/-- `Dice::ALL_WITH_PROPABILITY` from `src/game.rs`; the `f32` literals
`0.0833` and `0.1667` are modelled as the exact rationals they denote. -/
def Dice.ALL_WITH_PROPABILITY : List (Dice × Rat) :=
  [(Dice.new 1 1, 833/10000), (Dice.new 1 2, 1667/10000), (Dice.new 1 3, 1667/10000),
   (Dice.new 1 4, 1667/10000), (Dice.new 1 5, 1667/10000), (Dice.new 1 6, 1667/10000),
   (Dice.new 2 2, 833/10000), (Dice.new 2 3, 1667/10000), (Dice.new 2 4, 1667/10000),
   (Dice.new 2 5, 1667/10000), (Dice.new 2 6, 1667/10000),
   (Dice.new 3 3, 833/10000), (Dice.new 3 4, 1667/10000), (Dice.new 3 5, 1667/10000),
   (Dice.new 3 6, 1667/10000),
   (Dice.new 4 4, 833/10000), (Dice.new 4 5, 1667/10000), (Dice.new 4 6, 1667/10000),
   (Dice.new 5 5, 833/10000), (Dice.new 5 6, 1667/10000),
   (Dice.new 6 6, 833/10000)]

/-- `Board` from `src/game.rs`: a 24-slot signed array (always of length 24 in
the source, where it is `[i8; 24]`), bar and borne-off counters for both
players, and the active player. -/
structure Board where
  board : List Int
  active_bar : Nat
  inactive_bar : Nat
  active_home : Nat
  inactive_home : Nat
  active_player : Player
deriving DecidableEq, Repr

/-- Direct array indexing `self.board[i]` (in the source the index is always
in range; out-of-range reads default to 0 here). -/
def Board.get (b : Board) (i : Nat) : Int := b.board.getD i 0

/-- `Board::new()`: the standard starting position. -/
def Board.new : Board :=
  { board := [2,0,0,0,0,-5,0,-3,0,0,0,5,-5,0,0,0,3,0,5,0,0,0,0,-2]
    active_bar := 0, inactive_bar := 0, active_home := 0, inactive_home := 0
    active_player := .White }

/-- `Board::invert_board()`: the source loop swaps slots `i` and `23 - i`
while negating both, for `i` in `0..12`, i.e. the 24-slot array becomes the
reverse of its pointwise negation; it also swaps the bar counters and the
home counters. -/
def Board.invert_board (b : Board) : Board :=
  { b with
    board := (b.board.map (fun x => -x)).reverse
    active_bar := b.inactive_bar
    inactive_bar := b.active_bar
    active_home := b.inactive_home
    inactive_home := b.active_home }

/-- `Board::switch_player()`: flip the active player and invert the board. -/
def Board.switch_player (b : Board) : Board :=
  { b.invert_board with active_player := b.active_player.opposite }

/-- `Board::active_home_board()`: the slice `board[18..24]`. -/
def Board.active_home_board (b : Board) : List Int := (b.board.drop 18).take 6

/-- `Board::inactive_home_board()`: the slice `board[0..6]`. -/
def Board.inactive_home_board (b : Board) : List Int := b.board.take 6

/-- `Board::can_bear_off()`: bar empty and all 15 active checkers in the home
board or already borne off. -/
def Board.can_bear_off (b : Board) : Bool :=
  decide (b.active_bar = 0 ∧
    (b.active_home_board.filter (fun a => 0 < a)).sum + (b.active_home : Int) = 15)

/-- `Board::make_half_move_unchecked`: apply one half-move; the two `panic!`
arms (moving from home, moving to the bar) are modelled as `none`.  The `u8`
decrement of `active_bar` is modelled as truncated `Nat` subtraction (it never
underflows for generated half-moves). -/
def Board.make_half_move_unchecked (b : Board) (hm : HalfMove) : Option Board :=
  (match hm.src with
   | .Home => none
   | .Bar => some { b with active_bar := b.active_bar - 1 }
   | .Point i => some { b with board := b.board.set i (b.get i - 1) }).bind
  fun b2 =>
    match hm.dst with
    | .Home => some { b2 with active_home := b2.active_home + 1 }
    | .Bar => none
    | .Point j =>
      if b2.get j = -1 then
        some { b2 with board := b2.board.set j 1, inactive_bar := b2.inactive_bar + 1 }
      else
        some { b2 with board := b2.board.set j (b2.get j + 1) }

/-- Bar re-entry half-moves: the `else` branch of
`Board::generate_half_moves` (`src/game.rs` lines 348-360). -/
def Board.barEntryMoves (b : Board) (dice : Dice) : List (HalfMove × Dice) :=
  dice.get_unique_value.filterMap (fun die =>
    if -1 ≤ b.get (die - 1) then
      some (⟨Pos.Bar, Pos.Point (die - 1)⟩, dice.use_die die)
    else none)

/-- Ordinary point-to-point half-moves: the first loop of
`Board::generate_half_moves` (`src/game.rs` lines 305-317): for each available
die and each `i` in `0..(24 - die)`, move `i → i + die` when the source point
holds an active checker and the target is not blocked. -/
def Board.pointMoves (b : Board) (dice : Dice) : List (HalfMove × Dice) :=
  dice.get_unique_value.flatMap (fun die =>
    (List.range (24 - die)).filterMap (fun i =>
      if 0 < b.get i ∧ -1 ≤ b.get (i + die) then
        some (⟨Pos.Point i, Pos.Point (i + die)⟩, dice.use_die die)
      else none))

/-- Exact bear-off half-moves: the second loop of `Board::generate_half_moves`
(`src/game.rs` lines 319-330): for each available die, bear off from point
`24 - die` when it holds an active checker. -/
def Board.directBearOffs (b : Board) (dice : Dice) : List (HalfMove × Dice) :=
  dice.get_unique_value.filterMap (fun die =>
    let indx := 6 - die
    if 0 < b.active_home_board.getD indx 0 then
      some (⟨Pos.Point (24 - die), Pos.Home⟩, dice.use_die die)
    else none)

/-- Overshoot bear-off half-moves: the third loop of
`Board::generate_half_moves` (`src/game.rs` lines 331-346): for each available
die, bear off from every occupied point of `active_home_board()[indx..]`. -/
def Board.overshootBearOffs (b : Board) (dice : Dice) : List (HalfMove × Dice) :=
  dice.get_unique_value.flatMap (fun die =>
    let indx := 6 - die
    ((b.active_home_board.drop indx).enum).filterMap (fun iv =>
      if 0 < iv.2 then
        some (⟨Pos.Point (18 + indx + iv.1), Pos.Home⟩, dice.use_die die)
      else none))

/-- `Board::generate_half_moves` (`src/game.rs` lines 300-363), assembled from
the stages above exactly in source order: with a checker on the bar only bar
re-entries are generated; otherwise point moves, then (when bear-off is
allowed) exact bear-offs, then — only when no half-move has been produced at
all — overshoot bear-offs. -/
def Board.generate_half_moves (b : Board) (dice : Dice) : List (HalfMove × Dice) :=
  if b.active_bar = 0 then
    let pm := b.pointMoves dice
    if b.can_bear_off then
      let hm := pm ++ b.directBearOffs dice
      if hm.isEmpty then hm ++ b.overshootBearOffs dice else hm
    else pm
  else b.barEntryMoves dice

/-- The inner `position` search of `Move::unordered_equal`: index of the first
entry of `other` equal to `x` whose bit in the `u8` bitmask `used` is clear
(`!used & (1 << i) != 0` in the source; `!` on `u8` is xor with 255). -/
def posMatch {α : Type} [DecidableEq α] (other : List α) (x : α) (used : Nat) : Option Nat :=
  (other.enum.find? (fun p =>
    decide (p.2 = x ∧ (255 ^^^ used % 256) &&& (1 <<< p.1) ≠ 0))).map Prod.fst

/-- The loop of `Move::unordered_equal`: match every element of the remaining
left-hand list against a not-yet-used entry of `other`, greedily taking the
first available match. -/
def ueGo {α : Type} [DecidableEq α] (other : List α) : List α → Nat → Bool
  | [], _ => true
  | x :: rest, used =>
    match posMatch other x used with
    | some i => ueGo other rest (used ||| (1 <<< i))
    | none => false

/-- `Move::unordered_equal` (`src/game.rs` lines 408-417, identically
`src/backgammon/full_move.rs` lines 21-30), generic in the half-move type:
true when every element of `a` can be matched injectively against an equal
element of `b`. -/
def unordered_equal {α : Type} [DecidableEq α] (a b : List α) : Bool := ueGo b a 0

/-- One frontier entry of the full-move search of `Board::generage_moves`:
remaining dice, board reached so far, and the half-moves played so far (a
`Move` is its list of half-moves; the `TinyVector<HalfMove, 4>` capacity is
never exceeded since a die is consumed per half-move). -/
structure SearchEntry where
  dice : Dice
  board : Board
  mv : List HalfMove
deriving Repr

/-- Total application of a generated half-move inside the move search
(`board.make_half_move_unchecked(&hv)` in the source); generated half-moves
never take the panicking arms, so the `none` fallback is unreachable there. -/
def Board.apply_half_move (b : Board) (hm : HalfMove) : Board :=
  (b.make_half_move_unchecked hm).getD b

/-- The body of the `while let Some(..) = stack.pop()` loop of
`Board::generage_moves` (`src/game.rs` lines 263-285) for one popped entry:
update the best length and the recorded results, and, unless the dice are
exhausted, append one successor per generated half-move to the next stack. -/
def stepEntry (acc : Nat × List (List HalfMove) × List SearchEntry) (e : SearchEntry) :
    Nat × List (List HalfMove) × List SearchEntry :=
  let best := acc.1
  let results := acc.2.1
  let next := acc.2.2
  let l := e.mv.length
  let best2 := if best < l then l else best
  let results2 :=
    if best < l then [e.mv] else if l = best then results ++ [e.mv] else results
  if e.dice.is_used then (best2, results2, next)
  else
    (best2, results2,
      next ++ (e.board.generate_half_moves e.dice).map
        (fun hd => ⟨hd.2, e.board.apply_half_move hd.1, e.mv ++ [hd.1]⟩))

/-- Process a whole frontier: the Rust `Vec::pop` takes entries from the back,
so the stack is consumed in reverse order. -/
def processStack (stack : List SearchEntry) (best : Nat) (results : List (List HalfMove)) :
    Nat × List (List HalfMove) × List SearchEntry :=
  stack.reverse.foldl stepEntry (best, results, [])

/-- One step of the deduplicating refill of the stack (`src/game.rs` lines
290-294): a successor is dropped when some already-kept entry's move is
`unordered_equal` to its move. -/
def dedupPush (stack : List SearchEntry) (e : SearchEntry) : List SearchEntry :=
  if stack.any (fun f => unordered_equal f.mv e.mv) then stack else stack ++ [e]

/-- Deduplicate a frontier, keeping the first entry of every
`unordered_equal` class. -/
def dedupStack (next : List SearchEntry) : List SearchEntry := next.foldl dedupPush []

/-- The outer `loop` of `Board::generage_moves`: process the frontier, stop
when no successors exist, otherwise recur on the deduplicated successors.  A
non-double provides at most 2 and a double at most 4 uses, so at most 5
frontiers (partial-move lengths 0..4) are ever processed; fuel 5 therefore
reproduces the source loop exactly on dice satisfying the `Dice::new`
invariant. -/
def genLoop : Nat → List SearchEntry → Nat → List (List HalfMove) → Nat × List (List HalfMove)
  | 0, _, best, results => (best, results)
  | fuel + 1, stack, best, results =>
    let r := processStack stack best results
    if r.2.2.isEmpty then (r.1, r.2.1)
    else genLoop fuel (dedupStack r.2.2) r.1 r.2.1

/-- `Board::generage_moves` (`src/game.rs` lines 255-298): breadth-wise
expansion over half-moves with per-frontier deduplication, returning all
recorded moves of maximal recorded length. -/
def Board.generage_moves (b : Board) (dice : Dice) : List (List HalfMove) :=
  (genLoop 5 [⟨dice, b, []⟩] 0 []).2

namespace Packed

/-- `Board::INDEX_OFFSET_LOOKUP` (`src/backgammon/board.rs` lines 137-140):
bit offset of each point's 5-bit slot inside its `u64` word. -/
def INDEX_OFFSET_LOOKUP : List Nat :=
  [59, 54, 49, 44, 39, 34, 29, 24, 19, 14, 9, 4,
   4, 9, 14, 19, 24, 29, 34, 39, 44, 49, 54, 59]

/-- `Board::index_offset(index)`. -/
def index_offset (index : Nat) : Nat := INDEX_OFFSET_LOOKUP.getD index 0

/-- `Board::INVERT_SIGN_MASK` (`src/backgammon/board.rs` line 146). -/
def INVERT_SIGN_MASK : Nat :=
  0b1000010000100001000010000100001000010000100001000010000100000000

/-- The bit-packed `Board` of `src/backgammon/board.rs`: two `u64` words
(5 bits per point: 4 magnitude and 1 sign, plus 4 bar bits each), one `u8`
`home` byte (low nibble active, high nibble passive), and the active player. -/
structure PBoard where
  b0 : Nat
  b1 : Nat
  home : Nat
  active_player : Player
deriving DecidableEq, Repr

/-- The word `self.board[index / 12]` holding point `index`. -/
def PBoard.word (b : PBoard) (index : Nat) : Nat := if index / 12 = 0 then b.b0 else b.b1

/-- Replace the word holding point `index`. -/
def PBoard.setWord (b : PBoard) (index : Nat) (w : Nat) : PBoard :=
  if index / 12 = 0 then { b with b0 := w } else { b with b1 := w }

/-- `Board::empty()`. -/
def PBoard.empty : PBoard := { b0 := 0, b1 := 0, home := 0, active_player := .White }

/-- `Board::get_active_bar`. -/
def PBoard.get_active_bar (b : PBoard) : Nat := b.b0 &&& 0xF

/-- `Board::set_active_bar`. -/
def PBoard.set_active_bar (b : PBoard) (v : Nat) : PBoard :=
  { b with b0 := (b.b0 &&& 0xFFFFFFFFFFFFFFF0) ||| v }

/-- `Board::get_passive_bar`. -/
def PBoard.get_passive_bar (b : PBoard) : Nat := b.b1 &&& 0xF

/-- `Board::set_passive_bar`. -/
def PBoard.set_passive_bar (b : PBoard) (v : Nat) : PBoard :=
  { b with b1 := (b.b1 &&& 0xFFFFFFFFFFFFFFF0) ||| v }

/-- `Board::get_active_home`. -/
def PBoard.get_active_home (b : PBoard) : Nat := b.home &&& 0xF

/-- `Board::set_active_home`. -/
def PBoard.set_active_home (b : PBoard) (v : Nat) : PBoard :=
  { b with home := (b.home &&& 0xF0) ||| (v &&& 0xF) }

/-- `Board::get_passive_home`. -/
def PBoard.get_passive_home (b : PBoard) : Nat := b.home >>> 4

/-- `Board::get_checkers_on_position` (`src/backgammon/board.rs` lines
99-106): signed checker count decoded from the 5-bit slot, sign factor
`((val & 0x10) >> 4) * -2 + 1`. -/
def PBoard.get_checkers_on_position (b : PBoard) (index : Nat) : Int :=
  let val := b.word index >>> index_offset index
  let abs : Int := ((val &&& 0xF : Nat) : Int)
  let sign : Int := (((val &&& 0x10) >>> 4 : Nat) : Int) * (-2) + 1
  sign * abs

/-- `Board::set_checkers_on_position` (`src/backgammon/board.rs` lines
113-121); the sign bit `((value as u64 >> 7) & 1) << 4` is set exactly for
negative `i8` values, and `!mask` on `u64` is xor with all-ones. -/
def PBoard.set_checkers_on_position (b : PBoard) (index : Nat) (value : Int) : PBoard :=
  let off := index_offset index
  let mask := 0x1F <<< off
  let abs := value.natAbs
  let sign := (if value < 0 then 1 else 0) <<< 4
  let encoded := (abs ||| sign) <<< off
  b.setWord index ((b.word index &&& (0xFFFFFFFFFFFFFFFF ^^^ mask)) ||| encoded)

/-- `Board::switch_player` (`src/backgammon/board.rs` lines 148-156): XOR-swap
the two words, flip every sign bit via `INVERT_SIGN_MASK`, flip the active
player, and rotate the `u8` home byte by a nibble (`(home << 4) | home >> 4`
on `u8`, i.e. the left shift wraps modulo 256). -/
def PBoard.switch_player (b : PBoard) : PBoard :=
  let w0 := b.b0 ^^^ b.b1
  let w1 := b.b1 ^^^ w0
  let w0 := w0 ^^^ w1
  { b0 := w0 ^^^ INVERT_SIGN_MASK
    b1 := w1 ^^^ INVERT_SIGN_MASK
    home := ((b.home <<< 4) % 256) ||| (b.home >>> 4)
    active_player := b.active_player.opposite }

/-- `Board::active_home_board` (packed): checkers on points 18..23. -/
def PBoard.active_home_board (b : PBoard) : List Int :=
  (List.range 6).map (fun i => b.get_checkers_on_position (18 + i))

/-- `Board::active_player_can_bear_off` (`src/backgammon/board.rs` lines
206-213): the sum of the positive counts on points 18..23 plus the active
home counter equals 15.  Note the source performs no bar check here. -/
def PBoard.active_player_can_bear_off (b : PBoard) : Bool :=
  decide
    ((((List.range 6).map (fun i => b.get_checkers_on_position (18 + i))).filter
        (fun x => 0 < x)).sum + (b.get_active_home : Int) = 15)

/-- The packed `Dice` (`src/backgammon/dice.rs`) is one non-zero byte,
modelled as the raw `Nat` value of that byte. -/
def PDice := Nat

/-- `Dice::from_numbers(die1, die2)`: layout `ABCCCDDD` with `DDD = die1`,
`CCC = die2`. -/
def from_numbers (die1 die2 : Nat) : Nat := (die2 <<< 3) ||| die1

/-- `Dice::die1`. -/
def die1 (d : Nat) : Nat := d &&& 0x7

/-- `Dice::die2`. -/
def die2 (d : Nat) : Nat := (d >>> 3) &&& 0x7

/-- `Dice::die_1_is_used_non_double`. -/
def die_1_is_used_non_double (d : Nat) : Bool := d &&& 0b10000000 = 0b10000000

/-- `Dice::die_2_is_used_non_double`. -/
def die_2_is_used_non_double (d : Nat) : Bool := d &&& 0b01000000 = 0b01000000

/-- `Dice::die_is_used_double`. -/
def die_is_used_double (d : Nat) : Bool := d &&& 0b11111000 = 0b11111000

/-- `Dice::is_double`. -/
def is_double (d : Nat) : Bool := die1 d = die2 d || d &&& 0b11111000 = 0b11111000

/-- `Dice::use_die1`. -/
def use_die1 (d : Nat) : Nat := d ||| 0b10000000

/-- `Dice::use_die2`. -/
def use_die2 (d : Nat) : Nat := d ||| 0b01000000

/-- `Dice::use_double`. -/
def use_double (d : Nat) : Nat :=
  let current := d &&& 0b11000000
  if current = 0b11000000 then d ||| 0b11111000
  else (d &&& 0b00111111) ||| (((current >>> 6) + 1) <<< 6)

/-- `Dice::all_used`. -/
def all_used (d : Nat) : Bool :=
  (is_double d && die_is_used_double d) ||
  (!is_double d && die_1_is_used_non_double d && die_2_is_used_non_double d)

/-- `Dice::use_die` (`src/backgammon/dice.rs` lines 40-52). -/
def use_die (d : Nat) (die : Nat) : Nat :=
  if die = die1 d then (if is_double d then use_double d else use_die1 d) else use_die2 d

/-- `Dice::availiable_dice`. -/
def availiable_dice (d : Nat) : List Nat :=
  if is_double d then (if die_is_used_double d then [] else [die1 d])
  else
    (if die_1_is_used_non_double d then [] else [die1 d]) ++
    (if die_2_is_used_non_double d then [] else [die2 d])

/-- `Dice::ALL` from `src/backgammon/dice.rs` — the 20 entries exactly as
listed in the source (declared `[Self; 20]`). -/
def ALL : List Nat :=
  [from_numbers 1 1, from_numbers 1 2, from_numbers 1 3,
   from_numbers 1 4, from_numbers 1 5, from_numbers 1 6,
   from_numbers 2 2, from_numbers 2 3, from_numbers 2 4,
   from_numbers 2 5, from_numbers 2 6,
   from_numbers 3 3, from_numbers 3 4, from_numbers 3 5,
   from_numbers 3 6,
   from_numbers 4 4, from_numbers 4 5, from_numbers 4 6,
   from_numbers 5 5,
   from_numbers 6 6]

/-- `PositionCompressed::from_index` (`src/backgammon/position.rs`): point `i`
is encoded as the byte `i + 3`; `BAR` is 1 and `HOME` is 2.  A packed
half-move is the pair of its two position bytes. -/
def fromIndex (i : Nat) : Nat := i + 3

/-- `Board::make_halfmove_unchecked` (`src/backgammon/board.rs` lines
281-304).  The two `panic!` arms are modelled as `none`.  Note the source
decodes a position byte `n` as point `n - 2` here, although positions are
encoded as `index + 3`. -/
def PBoard.make_halfmove_unchecked (b : PBoard) (hm : Nat × Nat) : Option PBoard :=
  (match hm.1 with
   | 1 => some (b.set_active_bar (b.get_active_bar - 1))
   | 2 => none
   | n => some (b.set_checkers_on_position (n - 2) (b.get_checkers_on_position (n - 2) - 1))).bind
  fun b2 =>
    match hm.2 with
    | 1 => none
    | 2 => some (b2.set_active_home (b2.get_active_home + 1))
    | n =>
      let count := b2.get_checkers_on_position (n - 2)
      if -1 ≤ count then
        if count = -1 then
          some ((b2.set_passive_bar (b2.get_passive_bar + 1)).set_checkers_on_position (n - 2) 1)
        else some (b2.set_checkers_on_position (n - 2) (count + 1))
      else some b2

/-- Bar re-entry half-moves of the packed `Board::generate_half_moves`
(`src/backgammon/board.rs` lines 263-274). -/
def PBoard.barEntryMoves (b : PBoard) (dice : Nat) : List ((Nat × Nat) × Nat) :=
  (availiable_dice dice).filterMap (fun die =>
    if -1 ≤ b.get_checkers_on_position (die - 1) then
      some ((1, fromIndex (die - 1)), use_die dice die)
    else none)

/-- Point-to-point half-moves of the packed `Board::generate_half_moves`
(`src/backgammon/board.rs` lines 219-232). -/
def PBoard.pointMoves (b : PBoard) (dice : Nat) : List ((Nat × Nat) × Nat) :=
  (availiable_dice dice).flatMap (fun die =>
    (List.range (24 - die)).filterMap (fun i =>
      if 0 < b.get_checkers_on_position i ∧ -1 ≤ b.get_checkers_on_position (i + die) then
        some ((fromIndex i, fromIndex (i + die)), use_die dice die)
      else none))

/-- Exact bear-off half-moves of the packed `Board::generate_half_moves`
(`src/backgammon/board.rs` lines 233-245). -/
def PBoard.directBearOffs (b : PBoard) (dice : Nat) : List ((Nat × Nat) × Nat) :=
  (availiable_dice dice).filterMap (fun die =>
    let indx := 6 - die
    if 0 < b.get_checkers_on_position (18 + indx) then
      some ((fromIndex (24 - die), 2), use_die dice die)
    else none)

/-- Overshoot bear-off half-moves of the packed `Board::generate_half_moves`
(`src/backgammon/board.rs` lines 246-261). -/
def PBoard.overshootBearOffs (b : PBoard) (dice : Nat) : List ((Nat × Nat) × Nat) :=
  (availiable_dice dice).flatMap (fun die =>
    let indx := 6 - die
    ((b.active_home_board.drop indx).enum).filterMap (fun iv =>
      if 0 < iv.2 then
        some ((fromIndex (18 + indx + iv.1), 2), use_die dice die)
      else none))

/-- The packed `Board::generate_half_moves` (`src/backgammon/board.rs` lines
215-278), assembled from the stages above exactly in source order. -/
def PBoard.generate_half_moves (b : PBoard) (dice : Nat) : List ((Nat × Nat) × Nat) :=
  if b.get_active_bar = 0 then
    let pm := b.pointMoves dice
    if b.active_player_can_bear_off then
      let hm := pm ++ b.directBearOffs dice
      if hm.isEmpty then hm ++ b.overshootBearOffs dice else hm
    else pm
  else b.barEntryMoves dice

/-- Total application of a generated half-move inside the packed move search;
the `none` (panic) fallback is unreachable for generated half-moves. -/
def PBoard.apply_half_move (b : PBoard) (hm : Nat × Nat) : PBoard :=
  (b.make_halfmove_unchecked hm).getD b

/-- Frontier entry of the packed `Board::generate_moves`. -/
structure PEntry where
  dice : Nat
  board : PBoard
  mv : List (Nat × Nat)
deriving Repr

/-- Loop body of the packed `Board::generate_moves` (`src/backgammon/board.rs`
lines 169-192) for one popped entry. -/
def stepPEntry (acc : Nat × List (List (Nat × Nat)) × List PEntry) (e : PEntry) :
    Nat × List (List (Nat × Nat)) × List PEntry :=
  let best := acc.1
  let results := acc.2.1
  let next := acc.2.2
  let l := e.mv.length
  let best2 := if best < l then l else best
  let results2 :=
    if best < l then [e.mv] else if l = best then results ++ [e.mv] else results
  if all_used e.dice then (best2, results2, next)
  else
    (best2, results2,
      next ++ (e.board.generate_half_moves e.dice).map
        (fun hd => ⟨hd.2, e.board.apply_half_move hd.1, e.mv ++ [hd.1]⟩))

/-- Process a whole frontier of the packed search (`Vec::pop` order). -/
def processPStack (stack : List PEntry) (best : Nat) (results : List (List (Nat × Nat))) :
    Nat × List (List (Nat × Nat)) × List PEntry :=
  stack.reverse.foldl stepPEntry (best, results, [])

/-- Deduplicating refill of the packed search stack (`src/backgammon/board.rs`
lines 196-201). -/
def dedupPPush (stack : List PEntry) (e : PEntry) : List PEntry :=
  if stack.any (fun f => unordered_equal f.mv e.mv) then stack else stack ++ [e]

/-- Deduplicate a packed frontier. -/
def dedupPStack (next : List PEntry) : List PEntry := next.foldl dedupPPush []

/-- The outer loop of the packed `Board::generate_moves`; as in the array
implementation, at most 5 frontiers are ever processed. -/
def genPLoop :
    Nat → List PEntry → Nat → List (List (Nat × Nat)) → Nat × List (List (Nat × Nat))
  | 0, _, best, results => (best, results)
  | fuel + 1, stack, best, results =>
    let r := processPStack stack best results
    if r.2.2.isEmpty then (r.1, r.2.1)
    else genPLoop fuel (dedupPStack r.2.2) r.1 r.2.1

/-- The packed `Board::generate_moves` (`src/backgammon/board.rs` lines
162-204). -/
def PBoard.generate_moves (b : PBoard) (dice : Nat) : List (List (Nat × Nat)) :=
  (genPLoop 5 [⟨dice, b, []⟩] 0 []).2

end Packed

end Backgammon

namespace Backgammon

/-- A packed board with one active checker on point 0, two passive checkers on
point 2, fourteen active and thirteen passive checkers borne off (home byte
`222 = 14 + 13 * 16`), and empty bars. -/
def offByOneBoardPacked : Packed.PBoard :=
  { b0 := (1 <<< 59) ||| (18 <<< 49), b1 := 0, home := 222, active_player := .White }

/-- The array-implementation board holding the same position as
`offByOneBoardPacked`. -/
def offByOneBoardArray : Board :=
  { board := [1, 0, -2] ++ List.replicate 21 0, active_bar := 0, inactive_bar := 0,
    active_home := 14, inactive_home := 13, active_player := .White }

/-- The bear-off overshoot scenario of the specification: a single active
checker on point 20, fourteen active checkers borne off, opponent fully borne
off, empty bars. -/
def bearOffOvershootBoard : Board :=
  { board := List.replicate 20 0 ++ [1, 0, 0, 0], active_bar := 0, inactive_bar := 0,
    active_home := 14, inactive_home := 15, active_player := .White }

/-- A packed board with one active checker on the bar, fourteen active
checkers on point 18 and one active checker borne off. -/
def packedBarBoard : Packed.PBoard :=
  { b0 := 1, b1 := 14 <<< 34, home := 1, active_player := .White }

/-- The packed dice `(2, 3)` with die 2 already marked used (the byte 90,
reachable as `Dice::from_numbers(2, 3).use_die(3)`). -/
def packedDiceDie2Used : Nat := Packed.use_die (Packed.from_numbers 2 3) 3

/-- The entries of `other` still available to the matching loop of
`unordered_equal`: those whose index bit is clear in the `used` bitmask. -/
def availList {α : Type} (other : List α) (used : Nat) : List α :=
  (other.enum.filter (fun p => !used.testBit p.1)).map Prod.snd

/-- The successor entries contributed by one processed entry of the full-move
search: none when the dice are exhausted, else one per generated half-move
(the expansion step of `stepEntry`, named for the loop-invariant proofs). -/
def genChildren (e : SearchEntry) : List SearchEntry :=
  if e.dice.is_used then []
  else (e.board.generate_half_moves e.dice).map
    (fun hd => ⟨hd.2, e.board.apply_half_move hd.1, e.mv ++ [hd.1]⟩)

/-- The successor entries contributed by one processed entry of the packed
full-move search (the expansion step of `stepPEntry`). -/
def genPChildren (e : Packed.PEntry) : List Packed.PEntry :=
  if Packed.all_used e.dice then []
  else (e.board.generate_half_moves e.dice).map
    (fun hd => ⟨hd.2, e.board.apply_half_move hd.1, e.mv ++ [hd.1]⟩)

end Backgammon

namespace Backgammon

/-- C1: at the failing input — one active checker on point 0, opponent block
on point 2, dice (1,1) — the packed full-move generator returns a single Move
consisting of the half-move `POINT(0) → POINT(1)` played twice, because
`make_halfmove_unchecked` decrements point `n - 2 = index + 1` instead of the
moved point, so the checker on point 0 is never removed; only one half-move is
actually achievable from the position, as the array implementation of the same
generator (whose application is index-correct) shows. -/
theorem c1_packed_generator_wrong_at_failing_input :
    Packed.PBoard.generate_moves offByOneBoardPacked (Packed.from_numbers 1 1)
        = [[(Packed.fromIndex 0, Packed.fromIndex 1), (Packed.fromIndex 0, Packed.fromIndex 1)]]
    ∧ Packed.PBoard.get_checkers_on_position offByOneBoardPacked 0 = 1
    ∧ Packed.PBoard.get_checkers_on_position offByOneBoardPacked 1 = 0
    ∧ Board.generage_moves offByOneBoardArray (Dice.new 1 1)
        = [[⟨Pos.Point 0, Pos.Point 1⟩]] := by
  refine ⟨by decide, by decide, by decide, by decide⟩

/-- C3: `Dice::ALL` of the packed implementation has 20 entries, not 21 — the
combination (5,6) is missing — while the array implementation's `Dice::ALL`
does have 21; and the probabilities of `ALL_WITH_PROPABILITY` sum to exactly
3.0003 (the entries are 1/12 and 1/6 instead of 1/36 and 2/36), which is not
within 0.001 of 1. -/
theorem c3_dice_all_twenty_entries_and_sum_three :
    Packed.ALL.length = 20
    ∧ Packed.from_numbers 5 6 ∉ Packed.ALL
    ∧ Packed.from_numbers 6 5 ∉ Packed.ALL
    ∧ Dice.ALL.length = 21
    ∧ (Dice.ALL_WITH_PROPABILITY.map Prod.snd).sum = 30003 / 10000
    ∧ ¬ |(Dice.ALL_WITH_PROPABILITY.map Prod.snd).sum - 1| ≤ 1 / 1000 := by
  refine ⟨by decide, by decide, by decide, by decide, by norm_num [Dice.ALL_WITH_PROPABILITY], ?_⟩
  norm_num [Dice.ALL_WITH_PROPABILITY]
  rw [abs_of_pos (by norm_num)]
  norm_num

/-- C2 (counterexample): on the spec's own overshoot scenario — one active
checker on point 20, `active_home == 14`, dice (6,1) — the half-move generator
does not emit `POINT(20) → HOME`: the point move `POINT(20) → POINT(21)` via
die 1 makes the pre-overshoot half-move list non-empty, and the overshoot loop
is guarded by that list being empty.  The generator's output is exactly the
singleton `POINT(20) → POINT(21)`. -/
theorem c2_overshoot_not_emitted_in_scenario :
    Board.generate_half_moves bearOffOvershootBoard (Dice.new 6 1)
        = [(⟨Pos.Point 20, Pos.Point 21⟩, (Dice.new 6 1).use_die 1)]
    ∧ (⟨Pos.Point 20, Pos.Home⟩, (Dice.new 6 1).use_die 6)
        ∉ Board.generate_half_moves bearOffOvershootBoard (Dice.new 6 1) := by
  refine ⟨by decide, by decide⟩

end Backgammon

namespace Backgammon

/-- On a 24-slot board, the home-board slice `board[18..24]` reads point
`18 + i` for `i < 6`. -/
theorem Board.active_home_board_eq_map (b : Board) (hb : b.board.length = 24) :
    b.active_home_board = (List.range 6).map (fun i => b.get (18 + i)) := by
  apply List.ext_getElem
  · simp [Board.active_home_board, hb]
  · intro i h1 h2
    simp only [Board.active_home_board, List.getElem_take, List.getElem_drop,
      List.getElem_map, List.getElem_range, Board.get]
    rw [List.getD_eq_getElem]

/-- A sum over a positive filter is nonnegative. -/
theorem filter_pos_sum_nonneg (l : List Int) : 0 ≤ (l.filter (fun x => 0 < x)).sum := by
  apply List.sum_nonneg
  intro x hx
  have := List.of_mem_filter hx
  simp at this
  omega

/-- C4 (counterexample): the packed `active_player_can_bear_off` returns true
on a board whose active bar is not empty (one checker on the bar, fourteen on
point 18, one borne off), contradicting the claimed equivalence. -/
theorem c4_packed_bear_off_true_with_nonempty_bar :
    Packed.PBoard.active_player_can_bear_off packedBarBoard = true
    ∧ Packed.PBoard.get_active_bar packedBarBoard = 1 := by
  refine ⟨by decide, by decide⟩

/-- C4 (amended): the array implementation's `can_bear_off` is true exactly
when the bar is empty and the positive counts on points 18..23 plus the
borne-off count reach 15; the packed `active_player_can_bear_off` tests only
the sum condition, with no bar requirement; on packed boards satisfying the
15-checker invariant (positive counts over all 24 points plus bar plus home
equal 15) the two conditions coincide, so the bar clause is redundant there. -/
theorem c4_bear_off_characterisation :
    (∀ b : Board, b.board.length = 24 →
      (b.can_bear_off = true ↔
        b.active_bar = 0 ∧
          (((List.range 6).map (fun i => b.get (18 + i))).filter (fun x => 0 < x)).sum
            + (b.active_home : Int) = 15))
    ∧ (∀ pb : Packed.PBoard,
        (pb.active_player_can_bear_off = true ↔
          (((List.range 6).map (fun i => pb.get_checkers_on_position (18 + i))).filter
              (fun x => 0 < x)).sum + (pb.get_active_home : Int) = 15))
    ∧ (∀ pb : Packed.PBoard,
        (((List.range 24).map pb.get_checkers_on_position).filter (fun x => 0 < x)).sum
            + (pb.get_active_bar : Int) + (pb.get_active_home : Int) = 15 →
        (pb.active_player_can_bear_off = true ↔
          pb.get_active_bar = 0 ∧
            (((List.range 6).map (fun i => pb.get_checkers_on_position (18 + i))).filter
                (fun x => 0 < x)).sum + (pb.get_active_home : Int) = 15)) := by
  refine ⟨?_, ?_, ?_⟩
  · intro b hb
    rw [Board.can_bear_off, Board.active_home_board_eq_map b hb]
    simp
  · intro pb
    rw [Packed.PBoard.active_player_can_bear_off]
    simp
  · intro pb hinv
    rw [Packed.PBoard.active_player_can_bear_off]
    have hsplit : (List.range 24).map pb.get_checkers_on_position
        = (List.range 18).map pb.get_checkers_on_position
          ++ ((List.range 6).map (fun i => pb.get_checkers_on_position (18 + i))) := by
      have : (24 : Nat) = 18 + 6 := by norm_num
      rw [this, List.range_add, List.map_append, List.map_map]
      rfl
    rw [hsplit, List.filter_append, List.sum_append] at hinv
    have hlow := filter_pos_sum_nonneg ((List.range 18).map pb.get_checkers_on_position)
    constructor
    · intro h
      simp only [decide_eq_true_eq] at h
      constructor
      · omega
      · exact h
    · intro h
      simp only [decide_eq_true_eq]
      exact h.2

end Backgammon

namespace Backgammon

/-- C4 (witness): the amended characterisation applied to the concrete boards
`Board.new` (array side) and `offByOneBoardPacked` (packed side, which
satisfies the 15-checker invariant). -/
theorem c4_bear_off_characterisation_witness :
    (Board.new.can_bear_off = true ↔
      Board.new.active_bar = 0 ∧
        (((List.range 6).map (fun i => Board.new.get (18 + i))).filter (fun x => 0 < x)).sum
          + (Board.new.active_home : Int) = 15)
    ∧ (offByOneBoardPacked.active_player_can_bear_off = true ↔
        offByOneBoardPacked.get_active_bar = 0 ∧
          (((List.range 6).map
              (fun i => offByOneBoardPacked.get_checkers_on_position (18 + i))).filter
              (fun x => 0 < x)).sum + (offByOneBoardPacked.get_active_home : Int) = 15) :=
  ⟨c4_bear_off_characterisation.1 Board.new (by decide),
   c4_bear_off_characterisation.2.2 offByOneBoardPacked (by decide)⟩

/-- C9 (counterexample): the packed dice byte 90 — non-double (2,3) with die 2
already used — is returned entirely unchanged by `use_die(5)`, although 5 is
in 1..6 and differs from both die values. -/
theorem c9_use_die_unchanged_when_die2_already_used :
    Packed.is_double packedDiceDie2Used = false
    ∧ Packed.die1 packedDiceDie2Used = 2
    ∧ Packed.die2 packedDiceDie2Used = 3
    ∧ Packed.use_die packedDiceDie2Used 5 = packedDiceDie2Used := by
  refine ⟨by decide, by decide, by decide, by decide⟩

/-- C9 (amended): on a non-double packed dice, `use_die(v)` for a value `v`
different from die 1 (in particular for every 1..6 value matching neither die)
takes the `use_die2` branch, returning the byte with the die-2-used bit set;
the result therefore has die 2 marked as used, and it equals the input exactly
when die 2 was already marked used. -/
theorem c9_use_die_foreign_value_marks_die2 :
    ∀ d v : Nat, v ≠ Packed.die1 d →
      Packed.use_die d v = Packed.use_die2 d
      ∧ Packed.die_2_is_used_non_double (Packed.use_die d v) = true
      ∧ (Packed.use_die d v = d ↔ Packed.die_2_is_used_non_double d = true) := by
  intro d v hv
  have h64 : (64 : Nat) = 2 ^ 6 := by norm_num
  have handiff : ∀ x : Nat, x &&& 64 = 64 ↔ x.testBit 6 = true := by
    intro x
    rw [h64, Nat.and_two_pow]
    cases hx : x.testBit 6 <;> simp [hx]
  have huse : Packed.use_die d v = Packed.use_die2 d := by
    simp [Packed.use_die, hv]
  have hbit : Packed.use_die2 d &&& 64 = 64 := by
    rw [handiff]
    simp only [Packed.use_die2, Nat.testBit_or, Bool.or_eq_true]
    exact Or.inr (by decide)
  refine ⟨huse, ?_, ?_⟩
  · rw [huse]
    simp [Packed.die_2_is_used_non_double, hbit]
  · rw [huse]
    constructor
    · intro h
      simp only [Packed.die_2_is_used_non_double]
      rw [← h]
      simp [hbit]
    · intro h
      have hd : d.testBit 6 = true := by
        rw [← handiff]
        simpa [Packed.die_2_is_used_non_double] using h
      apply Nat.eq_of_testBit_eq
      intro i
      simp only [Packed.use_die2, Nat.testBit_or]
      rcases eq_or_ne i 6 with h6 | h6
      · subst h6
        simp [hd, h64, Nat.testBit_two_pow]
      · have hz : Nat.testBit 64 i = false := by
          rw [h64, Nat.testBit_two_pow]
          simp [Ne.symm h6]
        simp [hz]

/-- C9 (witness): the amended statement applied to the fresh non-double (2,3)
byte and the value 5: `use_die` marks die 2 used and does change the dice. -/
theorem c9_use_die_foreign_value_marks_die2_witness :
    Packed.use_die (Packed.from_numbers 2 3) 5 = Packed.use_die2 (Packed.from_numbers 2 3)
    ∧ Packed.die_2_is_used_non_double (Packed.use_die (Packed.from_numbers 2 3) 5) = true
    ∧ (Packed.use_die (Packed.from_numbers 2 3) 5 = Packed.from_numbers 2 3 ↔
        Packed.die_2_is_used_non_double (Packed.from_numbers 2 3) = true) :=
  c9_use_die_foreign_value_marks_die2 (Packed.from_numbers 2 3) 5 (by decide)

end Backgammon

namespace Backgammon

/-- C7 (counterexample): a half-move onto a point holding two opponent
checkers — the third claimed illegal kind — does not fail fatally in either
implementation: the array applicator returns a board (incrementing the
blocked point from -2 to -1), and the packed applicator returns a board as
well (leaving the examined blocked point unchanged). -/
theorem c7_blocked_target_does_not_abort :
    Board.get offByOneBoardArray 2 = -2
    ∧ (offByOneBoardArray.make_half_move_unchecked ⟨Pos.Point 0, Pos.Point 2⟩).isSome = true
    ∧ Option.map (fun b => b.get 2)
        (offByOneBoardArray.make_half_move_unchecked ⟨Pos.Point 0, Pos.Point 2⟩) = some (-1)
    ∧ Packed.PBoard.get_checkers_on_position offByOneBoardPacked 2 = -2
    ∧ (offByOneBoardPacked.make_halfmove_unchecked
        (Packed.fromIndex 0, Packed.fromIndex 1)).isSome = true
    ∧ Option.map (fun b => b.get_checkers_on_position 2)
        (offByOneBoardPacked.make_halfmove_unchecked
          (Packed.fromIndex 0, Packed.fromIndex 1)) = some (-2) := by
  refine ⟨by decide, by decide, by decide, by decide, by decide, by decide⟩

/-- C7 (amended): the unchecked applicators abort exactly on the first two
claimed kinds — moving from HOME or to BAR; a move onto a blocked point is
applied without aborting.  For the packed implementation the equivalence is
stated for position bytes among BAR (1), HOME (2) and POINT(0)..POINT(22)
(bytes 3..25); due to the `n - 2` decoding a POINT(23) byte would make the
source index past the offset-lookup table instead. -/
theorem c7_applicators_abort_only_on_home_and_bar :
    (∀ (b : Board) (hm : HalfMove),
        b.make_half_move_unchecked hm = none ↔ hm.src = Pos.Home ∨ hm.dst = Pos.Bar)
    ∧ (∀ (pb : Packed.PBoard) (f t : Nat), 1 ≤ f → f ≤ 25 → 1 ≤ t → t ≤ 25 →
        (pb.make_halfmove_unchecked (f, t) = none ↔ f = 2 ∨ t = 1)) := by
  constructor
  · intro b hm
    obtain ⟨s, d⟩ := hm
    cases s <;> cases d <;>
      simp [Board.make_half_move_unchecked, Option.bind] <;> split <;> simp
  · intro pb f t hf1 hf25 ht1 ht25
    rcases f with _ | _ | _ | n
    · omega
    · rcases t with _ | _ | _ | m
      · omega
      · simp [Packed.PBoard.make_halfmove_unchecked]
      · simp [Packed.PBoard.make_halfmove_unchecked]
      · simp only [Packed.PBoard.make_halfmove_unchecked, Option.some_bind]
        split <;> first | (split <;> simp) | simp
    · simp [Packed.PBoard.make_halfmove_unchecked]
    · rcases t with _ | _ | _ | m
      · omega
      · simp [Packed.PBoard.make_halfmove_unchecked]
      · simp [Packed.PBoard.make_halfmove_unchecked]
      · simp only [Packed.PBoard.make_halfmove_unchecked, Option.some_bind]
        split <;> first | (split <;> simp) | simp

/-- C7 (witness): the amended equivalence applied at concrete inputs: the
array applicator on a bar re-entry (no abort) and the packed applicator on a
from-HOME half-move (abort). -/
theorem c7_applicators_abort_only_on_home_and_bar_witness :
    (Board.new.make_half_move_unchecked ⟨Pos.Bar, Pos.Point 3⟩ = none ↔
      (Pos.Bar : Pos) = Pos.Home ∨ (Pos.Point 3 : Pos) = Pos.Bar)
    ∧ (offByOneBoardPacked.make_halfmove_unchecked (2, 5) = none ↔
        (2 : Nat) = 2 ∨ (5 : Nat) = 1) :=
  ⟨c7_applicators_abort_only_on_home_and_bar.1 Board.new ⟨Pos.Bar, Pos.Point 3⟩,
   c7_applicators_abort_only_on_home_and_bar.2 offByOneBoardPacked 2 5
     (by decide) (by decide) (by decide) (by decide)⟩

end Backgammon

namespace Backgammon

/-- The XOR-swap prefix of the packed `switch_player`: the second word after
the xor steps is the old first word. -/
theorem Packed.xor_swap_snd (x y : Nat) : y ^^^ (x ^^^ y) = x := by
  rw [Nat.xor_comm x y, ← Nat.xor_assoc, Nat.xor_self, Nat.zero_xor]

/-- The XOR-swap prefix of the packed `switch_player` exchanges the two
words: the first word after the three xor steps is the old second word
(an instance of `xor_swap_snd` with the roles shifted). -/
theorem Packed.xor_swap_fst (x y : Nat) : (x ^^^ y) ^^^ (y ^^^ (x ^^^ y)) = y :=
  Packed.xor_swap_snd y (x ^^^ y)

/-- The packed `switch_player` in closed form: swap the words while xoring
each with the sign mask, rotate the home byte, flip the player. -/
theorem Packed.switch_player_eq (pb : Packed.PBoard) :
    pb.switch_player =
      { b0 := pb.b1 ^^^ Packed.INVERT_SIGN_MASK
        b1 := pb.b0 ^^^ Packed.INVERT_SIGN_MASK
        home := ((pb.home <<< 4) % 256) ||| (pb.home >>> 4)
        active_player := pb.active_player.opposite } := by
  simp only [Packed.PBoard.switch_player]
  rw [Packed.xor_swap_fst, Packed.xor_swap_snd]

set_option maxRecDepth 4096 in
/-- Rotating the low and high nibble of a byte twice is the identity. -/
theorem nibble_rotate_involutive (h : Nat) (hh : h < 256) :
    ((((((h <<< 4) % 256) ||| (h >>> 4)) <<< 4) % 256) |||
      ((((h <<< 4) % 256) ||| (h >>> 4)) >>> 4)) = h := by
  have key : ∀ x : Fin 256,
      ((((((x.val <<< 4) % 256) ||| (x.val >>> 4)) <<< 4) % 256) |||
        ((((x.val <<< 4) % 256) ||| (x.val >>> 4)) >>> 4)) = x.val := by decide
  exact key ⟨h, hh⟩

/-- C6: `switch_player` is an involution in both implementations: twice in a
row it restores the array board exactly (the pairwise swap-negate loop, the
bar swap, the home swap and the player flip all undo themselves), and it
restores the packed board exactly (word swap and sign-mask xor cancel, the
home-byte nibble rotation of a `u8` value is self-inverse, the player flip
undoes itself). -/
theorem c6_switch_player_involution :
    (∀ b : Board, b.switch_player.switch_player = b)
    ∧ (∀ pb : Packed.PBoard, pb.home < 256 → pb.switch_player.switch_player = pb) := by
  constructor
  · intro b
    have hboard : ((b.board.map (fun x => -x)).reverse.map (fun x => -x)).reverse
        = b.board := by
      rw [List.map_reverse, List.reverse_reverse, List.map_map]
      simp
    have hp : b.active_player.opposite.opposite = b.active_player := by
      cases b.active_player <;> rfl
    simp [Board.switch_player, Board.invert_board, hboard, hp]
  · intro pb hh
    obtain ⟨w0, w1, h, p⟩ := pb
    rw [Packed.switch_player_eq, Packed.switch_player_eq]
    simp only [Packed.PBoard.mk.injEq]
    refine ⟨?_, ?_, ?_, ?_⟩
    · rw [Nat.xor_assoc, Nat.xor_self, Nat.xor_zero]
    · rw [Nat.xor_assoc, Nat.xor_self, Nat.xor_zero]
    · exact nibble_rotate_involutive h hh
    · cases p <;> rfl

/-- C6 (witness): the involution applied to the concrete boards
`offByOneBoardArray` and `offByOneBoardPacked` (whose home byte is below
256). -/
theorem c6_switch_player_involution_witness :
    offByOneBoardArray.switch_player.switch_player = offByOneBoardArray
    ∧ offByOneBoardPacked.switch_player.switch_player = offByOneBoardPacked :=
  ⟨c6_switch_player_involution.1 offByOneBoardArray,
   c6_switch_player_involution.2 offByOneBoardPacked (by decide)⟩

end Backgammon

namespace Backgammon

/-- C2 (amended): overshoot bear-offs are emitted only in total lockdown —
when the player can bear off and the point-move and exact bear-off loops
produced nothing for any die; in that case, for every available die `d` and
every point `p` in `18 + (6 - d) .. 23` holding an active checker, the
half-move `POINT(p) → HOME` consuming `d` is emitted.  In the spec's concrete
scenario (single checker on point 20, `active_home == 14`, dice (6,1)) no
lockdown holds, the half-move generator emits exactly
`POINT(20) → POINT(21)`, and `POINT(20) → HOME` instead appears as the second
half-move of the unique generated full move. -/
theorem c2_overshoot_emission_characterised :
    (∀ (b : Board) (d : Dice), b.board.length = 24 → b.active_bar = 0 →
      b.can_bear_off = true → b.pointMoves d = [] → b.directBearOffs d = [] →
      b.generate_half_moves d = b.overshootBearOffs d
      ∧ (∀ die ∈ d.get_unique_value, 1 ≤ die → die ≤ 6 →
          ∀ p, 18 + (6 - die) ≤ p → p ≤ 23 → 0 < b.get p →
            (⟨Pos.Point p, Pos.Home⟩, d.use_die die) ∈ b.generate_half_moves d))
    ∧ Board.generate_half_moves bearOffOvershootBoard (Dice.new 6 1)
        = [(⟨Pos.Point 20, Pos.Point 21⟩, (Dice.new 6 1).use_die 1)]
    ∧ Board.generage_moves bearOffOvershootBoard (Dice.new 6 1)
        = [[⟨Pos.Point 20, Pos.Point 21⟩, ⟨Pos.Point 21, Pos.Home⟩]] := by
  refine ⟨?_, by decide, by decide⟩
  intro b d hlen hbar hcbo hpm hdb
  have hgen : b.generate_half_moves d = b.overshootBearOffs d := by
    simp [Board.generate_half_moves, hbar, hcbo, hpm, hdb]
  refine ⟨hgen, ?_⟩
  intro die hdie hd1 hd6 p hp18 hp23 hpos
  rw [hgen, Board.overshootBearOffs, List.mem_flatMap]
  refine ⟨die, hdie, ?_⟩
  rw [List.mem_filterMap]
  refine ⟨(p - 18 - (6 - die), b.get p), ?_, ?_⟩
  · rw [List.mk_mem_enum_iff_get?, List.get?_drop,
      Board.active_home_board_eq_map b hlen]
    have hk : 6 - die + (p - 18 - (6 - die)) = p - 18 := by omega
    rw [hk, List.get?_map]
    have hrange : (List.range 6).get? (p - 18) = some (p - 18) := by
      rw [List.get?_eq_getElem?, List.getElem?_range (by omega)]
    rw [hrange]
    have hval : 18 + (p - 18) = p := by omega
    simp [hval]
  · have hval : 18 + (6 - die) + (p - 18 - (6 - die)) = p := by omega
    simp [hpos, hval]

/-- C2 (amended, witness): with dice (6,5) the scenario board is in lockdown
(no point move and no exact bear-off exists), and the characterisation yields
that the overshoot bear-off `POINT(20) → HOME` via die 6 is emitted. -/
theorem c2_overshoot_emission_characterised_witness :
    Board.generate_half_moves bearOffOvershootBoard (Dice.new 6 5)
      = Board.overshootBearOffs bearOffOvershootBoard (Dice.new 6 5)
    ∧ (⟨Pos.Point 20, Pos.Home⟩, (Dice.new 6 5).use_die 6)
        ∈ Board.generate_half_moves bearOffOvershootBoard (Dice.new 6 5) := by
  obtain ⟨h1, h2⟩ := c2_overshoot_emission_characterised.1 bearOffOvershootBoard
    (Dice.new 6 5) (by decide) (by decide) (by decide) (by decide) (by decide)
  exact ⟨h1, h2 6 (by decide) (by decide) (by decide) 20 (by decide) (by decide) (by decide)⟩

end Backgammon

namespace Backgammon

/-- Bridge between the `u8` mask arithmetic of the source and `Nat.testBit`:
for a mask below 256 and an index below 8, `!used & (1 << i) != 0` holds
exactly when bit `i` of `used` is clear. -/
theorem bitmask_avail_iff (used i : Nat) (hu : used < 256) (hi : i < 8) :
    ((255 ^^^ used % 256) &&& (1 <<< i) ≠ 0) ↔ used.testBit i = false := by
  rw [Nat.mod_eq_of_lt hu, Nat.one_shiftLeft, Nat.and_two_pow]
  have h255 : (255 : Nat).testBit i = true := by
    have h8 : (255 : Nat) = 2 ^ 8 - 1 := by norm_num
    rw [h8, Nat.testBit_two_pow_sub_one]
    simp [hi]
  have hxorbit : (255 ^^^ used).testBit i = !used.testBit i := by
    simp [Nat.testBit_xor, h255]
  rw [hxorbit]
  cases hx : used.testBit i
  · simpa using (Nat.two_pow_pos i).ne'
  · simp

/-- Entries of an `enum` record their own index and value. -/
theorem mem_enum_fst_lt {α : Type} {p : Nat × α} {l : List α} (h : p ∈ l.enum) :
    p.1 < l.length ∧ l.get? p.1 = some p.2 := by
  have h2 := List.mem_enum_iff_get?.mp h
  refine ⟨?_, h2⟩
  obtain ⟨hlt, _⟩ := List.get?_eq_some.mp h2
  exact hlt

/-- When the matching loop of `unordered_equal` fails to find a slot for `x`,
no available entry of `other` equals `x`. -/
theorem posMatch_none_spec {α : Type} [DecidableEq α] (other : List α) (x : α)
    (used : Nat) (hu : used < 256) (hlen : other.length ≤ 8)
    (h : posMatch other x used = none) :
    x ∉ availList other used := by
  unfold posMatch at h
  rw [Option.map_eq_none'] at h
  rw [List.find?_eq_none] at h
  intro hx
  obtain ⟨p, hpf, hpx⟩ := List.mem_map.mp hx
  have hpmem : p ∈ other.enum := (List.mem_filter.mp hpf).1
  have hpavail : used.testBit p.1 = false := by
    have := (List.mem_filter.mp hpf).2
    simpa using this
  have hfst := (mem_enum_fst_lt hpmem).1
  apply h p hpmem
  simp only [decide_eq_true_eq]
  exact ⟨hpx, (bitmask_avail_iff used p.1 hu (by omega)).mpr hpavail⟩

/-- When the matching loop of `unordered_equal` finds index `i` for `x`, then
`i` is an in-range available index holding `x`, and setting bit `i` in the
mask removes exactly one copy of `x` from the available entries. -/
theorem posMatch_some_spec {α : Type} [DecidableEq α] (other : List α) (x : α)
    (used i : Nat) (hu : used < 256) (hlen : other.length ≤ 8)
    (h : posMatch other x used = some i) :
    i < other.length ∧ used.testBit i = false
    ∧ x ∈ availList other used
    ∧ availList other (used ||| (1 <<< i)) = (availList other used).erase x := by
  unfold posMatch at h
  rw [Option.map_eq_some'] at h
  obtain ⟨b, hfind, hfst⟩ := h
  rw [List.find?_eq_some] at hfind
  obtain ⟨hpred, as, bs, hsplit, hprefix⟩ := hfind
  have hbmem : b ∈ other.enum := by
    rw [hsplit]
    exact List.mem_append.mpr (Or.inr (List.mem_cons_self b _))
  have hblt : b.1 < other.length := (mem_enum_fst_lt hbmem).1
  have hilt : i < other.length := hfst ▸ hblt
  simp only [decide_eq_true_eq] at hpred
  obtain ⟨hbx, hbbit⟩ := hpred
  have hbit : used.testBit i = false := by
    have := (bitmask_avail_iff used b.1 hu (by omega)).mp hbbit
    rwa [hfst] at this
  have hb : b = (i, x) := by
    obtain ⟨b1, b2⟩ := b
    simp only at hbx hfst
    rw [hfst, hbx]
  subst hb
  have hias : i = as.length := by
    have h1 : other.enum[as.length]? = some (i, x) := by
      rw [hsplit, List.getElem?_append_right (le_refl as.length), Nat.sub_self]
      simp
    have h2 : other.enum[as.length]? = other[as.length]?.map (fun a => (as.length, a)) := by
      rw [List.enum_eq_enumFrom, List.getElem?_enumFrom]
      simp
    rw [h2] at h1
    obtain ⟨a, _, ha2⟩ := Option.map_eq_some'.mp h1
    exact (congrArg Prod.fst ha2).symm
  have has : as = other.enum.take i := by
    rw [hsplit, hias, List.take_left]
  have hbs : bs = other.enum.drop (i + 1) := by
    have hre : as ++ (i, x) :: bs = (as ++ [(i, x)]) ++ bs := by simp
    rw [hre] at hsplit
    rw [hsplit, List.drop_left']
    simp [hias]
  have henumlen : other.enum.length = other.length := by simp
  have has_fst : ∀ p ∈ as, p.1 < i := by
    intro p hp
    rw [has] at hp
    obtain ⟨j, hj⟩ := List.mem_iff_getElem?.mp hp
    rcases Nat.lt_or_ge j i with hji | hji
    · rw [List.getElem?_take_of_lt hji, List.enum_eq_enumFrom, List.getElem?_enumFrom] at hj
      obtain ⟨a, _, ha⟩ := Option.map_eq_some'.mp hj
      rw [← ha]
      simpa using hji
    · rw [List.getElem?_eq_none (by simp; omega)] at hj
      exact absurd hj (by simp)
  have hbs_fst : ∀ p ∈ bs, i < p.1 := by
    intro p hp
    rw [hbs] at hp
    obtain ⟨j, hj⟩ := List.mem_iff_getElem?.mp hp
    rw [← List.get?_eq_getElem?, List.get?_drop, List.get?_eq_getElem?,
      List.enum_eq_enumFrom, List.getElem?_enumFrom] at hj
    obtain ⟨a, _, ha⟩ := Option.map_eq_some'.mp hj
    rw [← ha]
    simp
    omega
  have havail : availList other used
      = (as.filter (fun p => !used.testBit p.1)).map Prod.snd
        ++ x :: (bs.filter (fun p => !used.testBit p.1)).map Prod.snd := by
    rw [availList, hsplit, List.filter_append, List.filter_cons_of_pos (by simp [hbit])]
    simp
  have hfilter_as : as.filter (fun p => !(used ||| (1 <<< i)).testBit p.1)
      = as.filter (fun p => !used.testBit p.1) := by
    apply List.filter_congr
    intro p hp
    have hpi : p.1 ≠ i := by have := has_fst p hp; omega
    simp [Nat.testBit_or, Nat.one_shiftLeft, Nat.testBit_two_pow, Ne.symm hpi]
  have hfilter_bs : bs.filter (fun p => !(used ||| (1 <<< i)).testBit p.1)
      = bs.filter (fun p => !used.testBit p.1) := by
    apply List.filter_congr
    intro p hp
    have hpi : p.1 ≠ i := by have := hbs_fst p hp; omega
    simp [Nat.testBit_or, Nat.one_shiftLeft, Nat.testBit_two_pow, Ne.symm hpi]
  have havail2 : availList other (used ||| (1 <<< i))
      = (as.filter (fun p => !used.testBit p.1)).map Prod.snd
        ++ (bs.filter (fun p => !used.testBit p.1)).map Prod.snd := by
    rw [availList, hsplit, List.filter_append,
      List.filter_cons_of_neg (by simp [Nat.testBit_or, Nat.one_shiftLeft, Nat.testBit_two_pow]),
      hfilter_as, hfilter_bs, List.map_append]
  have hnotmem : x ∉ (as.filter (fun p => !used.testBit p.1)).map Prod.snd := by
    intro hx
    obtain ⟨p, hpf, hpx⟩ := List.mem_map.mp hx
    obtain ⟨hpas, hpavail⟩ := List.mem_filter.mp hpf
    have hplt : p.1 < i := has_fst p hpas
    have hpre := hprefix p hpas
    simp only [Bool.not_eq_true', decide_eq_false_iff_not] at hpre
    apply hpre
    refine ⟨hpx, ?_⟩
    have hpbit : used.testBit p.1 = false := by simpa using hpavail
    exact (bitmask_avail_iff used p.1 hu (by omega)).mpr hpbit
  refine ⟨hilt, hbit, ?_, ?_⟩
  · rw [havail]
    exact List.mem_append.mpr (Or.inr (List.mem_cons_self x _))
  · rw [havail2, havail, List.erase_append_right _ hnotmem, List.erase_cons_head]

end Backgammon

namespace Backgammon

/-- Greedy matching is complete: the loop of `unordered_equal` succeeds from a
mask exactly when the left list is included, by counts, in the entries of
`other` still available under the mask. -/
theorem ueGo_iff_counts {α : Type} [DecidableEq α] (other : List α)
    (hlen : other.length ≤ 8) :
    ∀ (a : List α) (used : Nat), used < 256 →
      (ueGo other a used = true ↔
        ∀ y, a.count y ≤ (availList other used).count y) := by
  intro a
  induction a with
  | nil =>
    intro used hu
    simp [ueGo]
  | cons x rest ih =>
    intro used hu
    cases hpm : posMatch other x used with
    | none =>
      rw [ueGo, hpm]
      constructor
      · intro h
        cases h
      · intro h
        exfalso
        have hnot := posMatch_none_spec other x used hu hlen hpm
        have hx := h x
        rw [List.count_eq_zero_of_not_mem hnot] at hx
        simp at hx
    | some i =>
      obtain ⟨hilt, hbit, hmem, herase⟩ := posMatch_some_spec other x used i hu hlen hpm
      have hu2 : used ||| (1 <<< i) < 256 := by
        have hi8 : (1 <<< i) < 256 := by
          rw [Nat.one_shiftLeft]
          calc (2 : Nat) ^ i ≤ 2 ^ 7 := Nat.pow_le_pow_right (by norm_num) (by omega)
          _ < 256 := by norm_num
        calc used ||| (1 <<< i) < 2 ^ 8 := Nat.or_lt_two_pow hu hi8
        _ = 256 := by norm_num
      rw [ueGo, hpm, ih (used ||| (1 <<< i)) hu2, herase]
      have hcount : 1 ≤ (availList other used).count x := by
        rw [Nat.one_le_iff_ne_zero]
        intro hz
        exact (List.count_eq_zero.mp hz) hmem
      constructor
      · intro h y
        have hy := h y
        rcases eq_or_ne y x with rfl | hyx
        · rw [List.count_erase_self] at hy
          rw [List.count_cons_self]
          omega
        · rw [List.count_erase_of_ne hyx] at hy
          rw [List.count_cons_of_ne hyx]
          exact hy
      · intro h y
        have hy := h y
        rcases eq_or_ne y x with rfl | hyx
        · rw [List.count_cons_self] at hy
          rw [List.count_erase_self]
          omega
        · rw [List.count_cons_of_ne hyx] at hy
          rw [List.count_erase_of_ne hyx]
          exact hy

/-- With the empty mask every entry is available. -/
theorem availList_zero {α : Type} (other : List α) : availList other 0 = other := by
  rw [availList]
  have hfil : other.enum.filter (fun p => !Nat.testBit 0 p.1) = other.enum := by
    apply List.filter_eq_self.mpr
    intro p _
    simp [Nat.zero_testBit]
  rw [hfil, List.enum_eq_enumFrom, List.enumFrom_map_snd]

/-- `Move::unordered_equal` tests sub-multiset inclusion (by counts) of the
left operand in the right one, for right operands of at most 8 entries (a
`Move` holds at most 4 half-moves). -/
theorem unordered_equal_iff_counts {α : Type} [DecidableEq α] (a b : List α)
    (hb : b.length ≤ 8) :
    unordered_equal a b = true ↔ ∀ y, a.count y ≤ b.count y := by
  rw [unordered_equal, ueGo_iff_counts b hb a 0 (by norm_num), availList_zero]

/-- A successful `unordered_equal` bounds the length of the left operand. -/
theorem unordered_equal_length_le {α : Type} [DecidableEq α] (a b : List α)
    (hb : b.length ≤ 8) (h : unordered_equal a b = true) : a.length ≤ b.length := by
  rw [unordered_equal_iff_counts a b hb] at h
  have hle : (a : Multiset α) ≤ (b : Multiset α) := by
    rw [Multiset.le_iff_count]
    intro y
    simpa using h y
  simpa using Multiset.card_le_card hle

/-- On lists of equal length (at most 8), `unordered_equal` is symmetric. -/
theorem unordered_equal_symm_of_length_eq {α : Type} [DecidableEq α] (a b : List α)
    (ha : a.length ≤ 8) (hb : b.length ≤ 8) (hlen : a.length = b.length)
    (h : unordered_equal a b = true) : unordered_equal b a = true := by
  rw [unordered_equal_iff_counts a b hb] at h
  rw [unordered_equal_iff_counts b a ha]
  have hle : (a : Multiset α) ≤ (b : Multiset α) := by
    rw [Multiset.le_iff_count]
    intro y
    simpa using h y
  have heq : (a : Multiset α) = (b : Multiset α) :=
    Multiset.eq_of_le_of_card_le hle (by simpa using hlen.ge)
  intro y
  have := congrArg (Multiset.count y) heq
  simpa using this.ge

/-- C10: the empty `Move` is `unordered_equal` to every `Move`, no non-empty
`Move` is `unordered_equal` to the empty one, `unordered_equal` tests
sub-multiset inclusion (by counts) of the left operand in the right one, and
consequently it is never symmetric on a pair of `Move`s with different
half-move counts. -/
theorem c10_unordered_equal_is_submultiset_test :
    (∀ m : List HalfMove, unordered_equal [] m = true)
    ∧ (∀ m : List HalfMove, m ≠ [] → unordered_equal m [] = false)
    ∧ (∀ a b : List HalfMove, b.length ≤ 4 →
        (unordered_equal a b = true ↔ ∀ y, a.count y ≤ b.count y))
    ∧ (∀ a b : List HalfMove, a.length ≤ 4 → b.length ≤ 4 → a.length ≠ b.length →
        ¬(unordered_equal a b = true ∧ unordered_equal b a = true)) := by
  refine ⟨fun m => rfl, ?_, ?_, ?_⟩
  · intro m hm
    cases m with
    | nil => exact absurd rfl hm
    | cons x rest => rfl
  · intro a b hb
    exact unordered_equal_iff_counts a b (by omega)
  · intro a b ha hb hne ⟨h1, h2⟩
    have l1 := unordered_equal_length_le a b (by omega) h1
    have l2 := unordered_equal_length_le b a (by omega) h2
    omega

/-- C10 (witness): the characterisation applied at concrete moves — a
singleton is not `unordered_equal` to the empty move, and symmetry fails on
the pair (singleton, empty). -/
theorem c10_unordered_equal_is_submultiset_test_witness :
    unordered_equal [HalfMove.mk (Pos.Point 0) (Pos.Point 1)] ([] : List HalfMove) = false
    ∧ ¬(unordered_equal [HalfMove.mk (Pos.Point 0) (Pos.Point 1)] ([] : List HalfMove) = true
        ∧ unordered_equal ([] : List HalfMove)
            [HalfMove.mk (Pos.Point 0) (Pos.Point 1)] = true) :=
  ⟨c10_unordered_equal_is_submultiset_test.2.1 _ (by simp),
   c10_unordered_equal_is_submultiset_test.2.2.2 _ _ (by simp) (by simp) (by simp)⟩

end Backgammon

namespace Backgammon

/-- Processing an entry whose partial already matches the best length records
the move and appends the entry's successors. -/
theorem stepEntry_steady (k : Nat) (results : List (List HalfMove))
    (next0 : List SearchEntry) (e : SearchEntry) (he : e.mv.length = k) :
    stepEntry (k, results, next0) e = (k, results ++ [e.mv], next0 ++ genChildren e) := by
  simp only [stepEntry, genChildren, he]
  split <;> simp

/-- Processing an entry whose partial is strictly longer than the best length
clears the results and appends the entry's successors. -/
theorem stepEntry_clearing (k best : Nat) (hbk : best < k)
    (results : List (List HalfMove)) (next0 : List SearchEntry) (e : SearchEntry)
    (he : e.mv.length = k) :
    stepEntry (best, results, next0) e = (k, [e.mv], next0 ++ genChildren e) := by
  simp only [stepEntry, genChildren, he]
  split <;> simp [hbk]

/-- Folding the loop body over entries of uniform partial length `k`, with the
best length already `k`, appends all their moves and all their successors. -/
theorem foldl_stepEntry_steady (k : Nat) :
    ∀ (L : List SearchEntry) (results : List (List HalfMove)) (next0 : List SearchEntry),
      (∀ e ∈ L, e.mv.length = k) →
      L.foldl stepEntry (k, results, next0)
        = (k, results ++ L.map (fun e => e.mv), next0 ++ L.flatMap genChildren) := by
  intro L
  induction L with
  | nil =>
    intro results next0 _
    simp
  | cons e L ih =>
    intro results next0 hlen
    have he : e.mv.length = k := hlen e (List.mem_cons_self e L)
    rw [List.foldl_cons, stepEntry_steady k results next0 e he,
      ih _ _ (fun f hf => hlen f (List.mem_cons_of_mem e hf))]
    simp

/-- Folding the loop body over a non-empty frontier of uniform partial length
`k` from a smaller best length: the first entry clears the results, so the
fold records exactly the frontier's moves. -/
theorem foldl_stepEntry_clearing (k best : Nat) (hbk : best < k) :
    ∀ (L : List SearchEntry) (results : List (List HalfMove)) (next0 : List SearchEntry),
      L ≠ [] →
      (∀ e ∈ L, e.mv.length = k) →
      L.foldl stepEntry (best, results, next0)
        = (k, L.map (fun e => e.mv), next0 ++ L.flatMap genChildren) := by
  intro L
  cases L with
  | nil =>
    intro results next0 h _
    exact absurd rfl h
  | cons e L =>
    intro results next0 _ hlen
    have he : e.mv.length = k := hlen e (List.mem_cons_self e L)
    rw [List.foldl_cons, stepEntry_clearing k best hbk results next0 e he,
      foldl_stepEntry_steady k L _ _ (fun f hf => hlen f (List.mem_cons_of_mem e hf))]
    simp

/-- Closed form of one round of the full-move search on a non-empty frontier
of uniform partial length `k`: the best length becomes `k`, the results
become exactly the frontier's moves in pop order, and the next frontier is
the concatenation of all successors. -/
theorem processStack_spec (stack : List SearchEntry) (k best : Nat)
    (results : List (List HalfMove)) (hne : stack ≠ [])
    (hlen : ∀ e ∈ stack, e.mv.length = k)
    (hbk : best ≤ k) (hres : best = k → results = []) :
    processStack stack best results
      = (k, stack.reverse.map (fun e => e.mv), stack.reverse.flatMap genChildren) := by
  rw [processStack]
  have hlenr : ∀ e ∈ stack.reverse, e.mv.length = k := by
    intro e he
    exact hlen e (List.mem_reverse.mp he)
  have hner : stack.reverse ≠ [] := by
    simpa using hne
  rcases Nat.lt_or_ge best k with hlt | hge
  · exact foldl_stepEntry_clearing k best hlt stack.reverse results [] hner hlenr
  · have hbe : best = k := by omega
    subst hbe
    rw [hres rfl, foldl_stepEntry_steady best stack.reverse [] [] hlenr]
    simp

/-- Every successor's partial move is one half-move longer. -/
theorem genChildren_mv_length (e : SearchEntry) :
    ∀ f ∈ genChildren e, f.mv.length = e.mv.length + 1 := by
  intro f hf
  rw [genChildren] at hf
  split at hf
  · cases hf
  · obtain ⟨hd, _, hfd⟩ := List.mem_map.mp hf
    rw [← hfd]
    simp

/-- `dedupPush` only keeps entries from its inputs. -/
theorem dedupPush_mem (stack : List SearchEntry) (e : SearchEntry) :
    ∀ f ∈ dedupPush stack e, f ∈ stack ∨ f = e := by
  intro f hf
  rw [dedupPush] at hf
  split at hf
  · exact Or.inl hf
  · rcases List.mem_append.mp hf with h | h
    · exact Or.inl h
    · exact Or.inr (List.mem_singleton.mp h)

/-- Deduplication only keeps entries of the original frontier. -/
theorem dedupStack_mem (next : List SearchEntry) :
    ∀ f ∈ dedupStack next, f ∈ next := by
  suffices h : ∀ (l acc : List SearchEntry), ∀ f ∈ l.foldl dedupPush acc, f ∈ acc ∨ f ∈ l by
    intro f hf
    rcases h next [] f hf with h1 | h1
    · cases h1
    · exact h1
  intro l
  induction l with
  | nil =>
    intro acc f hf
    exact Or.inl hf
  | cons e l ih =>
    intro acc f hf
    rw [List.foldl_cons] at hf
    rcases ih (dedupPush acc e) f hf with h1 | h1
    · rcases dedupPush_mem acc e f h1 with h2 | h2
      · exact Or.inl h2
      · exact Or.inr (h2 ▸ List.mem_cons_self e l)
    · exact Or.inr (List.mem_cons_of_mem e h1)

/-- Deduplication leaves no later entry whose move is `unordered_equal` to an
earlier kept entry's move. -/
theorem dedupStack_pairwise (next : List SearchEntry) :
    (dedupStack next).Pairwise (fun f e => unordered_equal f.mv e.mv = false) := by
  suffices h : ∀ (l acc : List SearchEntry),
      acc.Pairwise (fun f e => unordered_equal f.mv e.mv = false) →
      (l.foldl dedupPush acc).Pairwise (fun f e => unordered_equal f.mv e.mv = false) by
    exact h next [] List.Pairwise.nil
  intro l
  induction l with
  | nil =>
    intro acc h
    exact h
  | cons e l ih =>
    intro acc hacc
    rw [List.foldl_cons]
    apply ih
    rw [dedupPush]
    split
    · exact hacc
    · rename_i hany
      rw [List.pairwise_append]
      refine ⟨hacc, List.pairwise_singleton _ _, ?_⟩
      intro f hf g hg
      rw [List.mem_singleton.mp hg]
      simp only [List.any_eq_true, not_exists, not_and] at hany
      have := hany f hf
      simpa using this

/-- Deduplicating a non-empty frontier yields a non-empty frontier (the first
entry is always kept). -/
theorem dedupStack_ne_nil (next : List SearchEntry) (h : next ≠ []) :
    dedupStack next ≠ [] := by
  cases next with
  | nil => exact absurd rfl h
  | cons e l =>
    rw [dedupStack, List.foldl_cons]
    have hstart : dedupPush [] e = [e] := by
      rw [dedupPush]
      simp
    rw [hstart]
    suffices hs : ∀ (l2 acc : List SearchEntry), acc ≠ [] → l2.foldl dedupPush acc ≠ [] by
      exact hs l [e] (by simp)
    intro l2
    induction l2 with
    | nil =>
      intro acc hacc
      exact hacc
    | cons f l2 ih =>
      intro acc hacc
      rw [List.foldl_cons]
      apply ih
      rw [dedupPush]
      split
      · exact hacc
      · simp

end Backgammon

namespace Backgammon

/-- Loop invariant of the full-move search: starting from a non-empty
frontier of uniform partial length with pairwise non-`unordered_equal`
partials (in both directions), and results satisfying the same shape for the
current best length, the loop returns a result list of one uniform length
whose entries are pairwise non-`unordered_equal` in both directions. -/
theorem genLoop_spec (fuel : Nat) :
    ∀ (stack : List SearchEntry) (k best : Nat) (results : List (List HalfMove)),
    stack ≠ [] →
    (∀ e ∈ stack, e.mv.length = k) →
    stack.Pairwise (fun f e => unordered_equal f.mv e.mv = false
      ∧ unordered_equal e.mv f.mv = false) →
    k + fuel ≤ 8 →
    best ≤ k → (best = k → results = []) →
    (∀ m ∈ results, m.length = best) →
    results.Pairwise (fun m1 m2 => unordered_equal m1 m2 = false
      ∧ unordered_equal m2 m1 = false) →
    ∃ j, j ≤ 8
      ∧ (∀ m ∈ (genLoop fuel stack best results).2, m.length = j)
      ∧ (genLoop fuel stack best results).2.Pairwise
          (fun m1 m2 => unordered_equal m1 m2 = false ∧ unordered_equal m2 m1 = false) := by
  induction fuel with
  | zero =>
    intro stack k best results _ _ _ hk8 hbk _ hreslen hrespw
    exact ⟨best, by omega, hreslen, hrespw⟩
  | succ fuel ih =>
    intro stack k best results hne hlen hpw hk8 hbk hres hreslen hrespw
    have hpw1 : stack.Pairwise (fun f e => unordered_equal f.mv e.mv = false) :=
      hpw.imp (fun h => h.1)
    have hproc := processStack_spec stack k best results hne hlen hbk hres
    have hmaplen : ∀ m ∈ stack.reverse.map (fun e => e.mv), m.length = k := by
      intro m hm
      obtain ⟨e, he, hem⟩ := List.mem_map.mp hm
      rw [← hem]
      exact hlen e (List.mem_reverse.mp he)
    have hmappw : (stack.reverse.map (fun e => e.mv)).Pairwise
        (fun m1 m2 => unordered_equal m1 m2 = false ∧ unordered_equal m2 m1 = false) := by
      rw [List.pairwise_map]
      rw [List.pairwise_reverse]
      exact hpw.imp (fun h => ⟨h.2, h.1⟩)
    rw [genLoop, hproc]
    by_cases hemp : (stack.reverse.flatMap genChildren).isEmpty
    · simp only [hemp]
      exact ⟨k, by omega, hmaplen, hmappw⟩
    · simp only [hemp]
      set next := stack.reverse.flatMap genChildren with hnext
      have hnextne : next ≠ [] := by
        intro hcon
        rw [hcon] at hemp
        exact hemp rfl
      have hchlen : ∀ e ∈ next, e.mv.length = k + 1 := by
        intro e he
        obtain ⟨f, hf, hef⟩ := List.mem_flatMap.mp he
        rw [genChildren_mv_length f e hef, hlen f (List.mem_reverse.mp hf)]
      have hstacklen : ∀ e ∈ dedupStack next, e.mv.length = k + 1 := by
        intro e he
        exact hchlen e (dedupStack_mem next e he)
    -- upgrade the one-sided dedup pairwise to a two-sided one using symmetry
      have hstackpw : (dedupStack next).Pairwise
          (fun f e => unordered_equal f.mv e.mv = false
            ∧ unordered_equal e.mv f.mv = false) := by
        apply List.Pairwise.imp_of_mem ?_ (dedupStack_pairwise next)
        intro f e hf he h1
        refine ⟨h1, ?_⟩
        cases h2 : unordered_equal e.mv f.mv with
        | false => rfl
        | true =>
          exfalso
          have hsym := unordered_equal_symm_of_length_eq e.mv f.mv
            (by rw [hstacklen e he]; omega) (by rw [hstacklen f hf]; omega)
            (by rw [hstacklen e he, hstacklen f hf]) h2
          rw [hsym] at h1
          cases h1
      have := ih (dedupStack next) (k + 1) k (stack.reverse.map (fun e => e.mv))
        (dedupStack_ne_nil next hnextne) hstacklen hstackpw (by omega) (by omega)
        (by omega) hmaplen hmappw
      exact this

end Backgammon

namespace Backgammon

/-- Right-shift distributes over xor. -/
theorem Packed.shiftRight_xor (x m k : Nat) :
    (x ^^^ m) >>> k = (x >>> k) ^^^ (m >>> k) := by
  apply Nat.eq_of_testBit_eq
  intro i
  simp [Nat.testBit_shiftRight, Nat.testBit_xor]

/-- Xoring a 5-bit checker slot with a mask that touches only the sign bit
negates the decoded signed count. -/
theorem Packed.decode_neg (v m : Nat) (h15 : m &&& 0xF = 0) (h16 : m &&& 0x10 = 0x10) :
    (((((v ^^^ m) &&& 0x10) >>> 4 : Nat) : Int) * (-2) + 1)
      * (((v ^^^ m) &&& 0xF : Nat) : Int)
    = -(((((v &&& 0x10) >>> 4 : Nat) : Int) * (-2) + 1) * ((v &&& 0xF : Nat) : Int)) := by
  have habs : (v ^^^ m) &&& 0xF = v &&& 0xF := by
    rw [Nat.and_xor_distrib_right, h15, Nat.xor_zero]
  have hsign : (v ^^^ m) &&& 0x10 = (v &&& 0x10) ^^^ 0x10 := by
    rw [Nat.and_xor_distrib_right, h16]
  have hv16 : v &&& 0x10 = 0 ∨ v &&& 0x10 = 0x10 := by
    have h2 : (0x10 : Nat) = 2 ^ 4 := by norm_num
    rw [h2, Nat.and_two_pow]
    cases v.testBit 4 <;> simp
  have h161 : ((0x10 : Nat) >>> 4) = 1 := by decide
  have h01 : ((0 : Nat) >>> 4) = 0 := by decide
  rw [habs, hsign]
  rcases hv16 with hv | hv <;> rw [hv] <;> norm_num [h161, h01] <;> ring

/-- Shifted form of `decode_neg` for a whole board word and a slot offset at
which the sign mask has exactly the sign bit set. -/
theorem Packed.decode_shift_neg (x off : Nat)
    (h15 : (Packed.INVERT_SIGN_MASK >>> off) &&& 0xF = 0)
    (h16 : (Packed.INVERT_SIGN_MASK >>> off) &&& 0x10 = 0x10) :
    ((((((x ^^^ Packed.INVERT_SIGN_MASK) >>> off) &&& 0x10) >>> 4 : Nat) : Int) * (-2) + 1)
      * ((((x ^^^ Packed.INVERT_SIGN_MASK) >>> off) &&& 0xF : Nat) : Int)
    = -((((((x >>> off) &&& 0x10) >>> 4 : Nat) : Int) * (-2) + 1)
        * (((x >>> off) &&& 0xF : Nat) : Int)) := by
  rw [Packed.shiftRight_xor]
  exact Packed.decode_neg (x >>> off) (Packed.INVERT_SIGN_MASK >>> off) h15 h16

set_option maxRecDepth 8192 in
/-- The home-byte nibble rotation exchanges the two nibble reads. -/
theorem nibble_rotate_reads (h : Nat) (hh : h < 256) :
    ((((h <<< 4) % 256) ||| (h >>> 4)) &&& 0xF) = h >>> 4
    ∧ ((((h <<< 4) % 256) ||| (h >>> 4)) >>> 4) = h &&& 0xF := by
  have key : ∀ x : Fin 256,
      ((((x.val <<< 4) % 256) ||| (x.val >>> 4)) &&& 0xF) = x.val >>> 4
      ∧ ((((x.val <<< 4) % 256) ||| (x.val >>> 4)) >>> 4) = x.val &&& 0xF := by decide
  exact key ⟨h, hh⟩

set_option maxHeartbeats 1000000 in
/-- C5: the bit-packed `switch_player` realises the definitional perspective
inversion: for every raw packed board (arbitrary 64-bit words, home byte
below 256), the signed count read at point `i` afterwards is the negation of
the count read at `23 - i` before, the bar reads are exchanged, the home
reads are exchanged, and the active player is flipped. -/
theorem c5_packed_switch_player_refines_inversion :
    ∀ (w0 w1 h : Nat) (p : Player), h < 256 →
      (∀ i, i < 24 →
        (Packed.PBoard.mk w0 w1 h p).switch_player.get_checkers_on_position i
          = - (Packed.PBoard.mk w0 w1 h p).get_checkers_on_position (23 - i))
      ∧ (Packed.PBoard.mk w0 w1 h p).switch_player.get_active_bar
          = (Packed.PBoard.mk w0 w1 h p).get_passive_bar
      ∧ (Packed.PBoard.mk w0 w1 h p).switch_player.get_passive_bar
          = (Packed.PBoard.mk w0 w1 h p).get_active_bar
      ∧ (Packed.PBoard.mk w0 w1 h p).switch_player.get_active_home
          = (Packed.PBoard.mk w0 w1 h p).get_passive_home
      ∧ (Packed.PBoard.mk w0 w1 h p).switch_player.get_passive_home
          = (Packed.PBoard.mk w0 w1 h p).get_active_home
      ∧ (Packed.PBoard.mk w0 w1 h p).switch_player.active_player = p.opposite := by
  intro w0 w1 h p hh
  refine ⟨?_, ?_, ?_, ?_, ?_, ?_⟩
  · intro i hi
    interval_cases i <;>
      (rw [Packed.switch_player_eq]
       simp only [Packed.PBoard.get_checkers_on_position, Packed.PBoard.word,
         Packed.index_offset, Packed.INDEX_OFFSET_LOOKUP]
       norm_num
       exact Packed.decode_shift_neg _ _ (by decide) (by decide))
  · rw [Packed.switch_player_eq]
    simp only [Packed.PBoard.get_active_bar, Packed.PBoard.get_passive_bar]
    rw [Nat.and_xor_distrib_right,
      (by decide : Packed.INVERT_SIGN_MASK &&& 0xF = 0), Nat.xor_zero]
  · rw [Packed.switch_player_eq]
    simp only [Packed.PBoard.get_active_bar, Packed.PBoard.get_passive_bar]
    rw [Nat.and_xor_distrib_right,
      (by decide : Packed.INVERT_SIGN_MASK &&& 0xF = 0), Nat.xor_zero]
  · rw [Packed.switch_player_eq]
    simp only [Packed.PBoard.get_active_home, Packed.PBoard.get_passive_home]
    exact (nibble_rotate_reads h hh).1
  · rw [Packed.switch_player_eq]
    simp only [Packed.PBoard.get_active_home, Packed.PBoard.get_passive_home]
    exact (nibble_rotate_reads h hh).2
  · rw [Packed.switch_player_eq]

/-- C5 (witness): the refinement applied to the concrete board
`offByOneBoardPacked`, instantiated at point 2 (whose mirror is point 21). -/
theorem c5_packed_switch_player_refines_inversion_witness :
    offByOneBoardPacked.switch_player.get_checkers_on_position 21
      = - offByOneBoardPacked.get_checkers_on_position 2
    ∧ offByOneBoardPacked.switch_player.get_active_home
      = offByOneBoardPacked.get_passive_home := by
  obtain ⟨hpts, _, _, hhome, _, _⟩ :=
    c5_packed_switch_player_refines_inversion ((1 <<< 59) ||| (18 <<< 49)) 0 222 .White
      (by decide)
  exact ⟨hpts 21 (by decide), hhome⟩

end Backgammon

namespace Backgammon

/-- Packed search: processing an entry whose partial already matches the best
length records the move and appends the entry's successors. -/
theorem stepPEntry_steady (k : Nat) (results : List (List (Nat × Nat)))
    (next0 : List Packed.PEntry) (e : Packed.PEntry) (he : e.mv.length = k) :
    Packed.stepPEntry (k, results, next0) e
      = (k, results ++ [e.mv], next0 ++ genPChildren e) := by
  simp only [Packed.stepPEntry, genPChildren, he]
  split <;> simp

/-- Packed search: processing an entry whose partial is strictly longer than
the best length clears the results and appends the entry's successors. -/
theorem stepPEntry_clearing (k best : Nat) (hbk : best < k)
    (results : List (List (Nat × Nat))) (next0 : List Packed.PEntry)
    (e : Packed.PEntry) (he : e.mv.length = k) :
    Packed.stepPEntry (best, results, next0) e = (k, [e.mv], next0 ++ genPChildren e) := by
  simp only [Packed.stepPEntry, genPChildren, he]
  split <;> simp [hbk]

/-- Packed search: folding the loop body over entries of uniform partial
length `k`, with the best length already `k`, appends all their moves and all
their successors. -/
theorem foldl_stepPEntry_steady (k : Nat) :
    ∀ (L : List Packed.PEntry) (results : List (List (Nat × Nat)))
      (next0 : List Packed.PEntry),
      (∀ e ∈ L, e.mv.length = k) →
      L.foldl Packed.stepPEntry (k, results, next0)
        = (k, results ++ L.map (fun e => e.mv), next0 ++ L.flatMap genPChildren) := by
  intro L
  induction L with
  | nil =>
    intro results next0 _
    simp
  | cons e L ih =>
    intro results next0 hlen
    have he : e.mv.length = k := hlen e (List.mem_cons_self e L)
    rw [List.foldl_cons, stepPEntry_steady k results next0 e he,
      ih _ _ (fun f hf => hlen f (List.mem_cons_of_mem e hf))]
    simp

/-- Packed search: folding the loop body over a non-empty frontier of uniform
partial length `k` from a smaller best length records exactly the frontier's
moves. -/
theorem foldl_stepPEntry_clearing (k best : Nat) (hbk : best < k) :
    ∀ (L : List Packed.PEntry) (results : List (List (Nat × Nat)))
      (next0 : List Packed.PEntry),
      L ≠ [] →
      (∀ e ∈ L, e.mv.length = k) →
      L.foldl Packed.stepPEntry (best, results, next0)
        = (k, L.map (fun e => e.mv), next0 ++ L.flatMap genPChildren) := by
  intro L
  cases L with
  | nil =>
    intro results next0 h _
    exact absurd rfl h
  | cons e L =>
    intro results next0 _ hlen
    have he : e.mv.length = k := hlen e (List.mem_cons_self e L)
    rw [List.foldl_cons, stepPEntry_clearing k best hbk results next0 e he,
      foldl_stepPEntry_steady k L _ _ (fun f hf => hlen f (List.mem_cons_of_mem e hf))]
    simp

/-- Closed form of one round of the packed full-move search on a non-empty
frontier of uniform partial length `k`. -/
theorem processPStack_spec (stack : List Packed.PEntry) (k best : Nat)
    (results : List (List (Nat × Nat))) (hne : stack ≠ [])
    (hlen : ∀ e ∈ stack, e.mv.length = k)
    (hbk : best ≤ k) (hres : best = k → results = []) :
    Packed.processPStack stack best results
      = (k, stack.reverse.map (fun e => e.mv), stack.reverse.flatMap genPChildren) := by
  rw [Packed.processPStack]
  have hlenr : ∀ e ∈ stack.reverse, e.mv.length = k := by
    intro e he
    exact hlen e (List.mem_reverse.mp he)
  have hner : stack.reverse ≠ [] := by
    simpa using hne
  rcases Nat.lt_or_ge best k with hlt | hge
  · exact foldl_stepPEntry_clearing k best hlt stack.reverse results [] hner hlenr
  · have hbe : best = k := by omega
    subst hbe
    rw [hres rfl, foldl_stepPEntry_steady best stack.reverse [] [] hlenr]
    simp

/-- Packed search: every successor's partial move is one half-move longer. -/
theorem genPChildren_mv_length (e : Packed.PEntry) :
    ∀ f ∈ genPChildren e, f.mv.length = e.mv.length + 1 := by
  intro f hf
  rw [genPChildren] at hf
  split at hf
  · cases hf
  · obtain ⟨hd, _, hfd⟩ := List.mem_map.mp hf
    rw [← hfd]
    simp

/-- Packed search: `dedupPPush` only keeps entries from its inputs. -/
theorem dedupPPush_mem (stack : List Packed.PEntry) (e : Packed.PEntry) :
    ∀ f ∈ Packed.dedupPPush stack e, f ∈ stack ∨ f = e := by
  intro f hf
  rw [Packed.dedupPPush] at hf
  split at hf
  · exact Or.inl hf
  · rcases List.mem_append.mp hf with h | h
    · exact Or.inl h
    · exact Or.inr (List.mem_singleton.mp h)

/-- Packed search: deduplication only keeps entries of the original
frontier. -/
theorem dedupPStack_mem (next : List Packed.PEntry) :
    ∀ f ∈ Packed.dedupPStack next, f ∈ next := by
  suffices h : ∀ (l acc : List Packed.PEntry),
      ∀ f ∈ l.foldl Packed.dedupPPush acc, f ∈ acc ∨ f ∈ l by
    intro f hf
    rcases h next [] f hf with h1 | h1
    · cases h1
    · exact h1
  intro l
  induction l with
  | nil =>
    intro acc f hf
    exact Or.inl hf
  | cons e l ih =>
    intro acc f hf
    rw [List.foldl_cons] at hf
    rcases ih (Packed.dedupPPush acc e) f hf with h1 | h1
    · rcases dedupPPush_mem acc e f h1 with h2 | h2
      · exact Or.inl h2
      · exact Or.inr (h2 ▸ List.mem_cons_self e l)
    · exact Or.inr (List.mem_cons_of_mem e h1)

/-- Packed search: deduplication leaves no later entry whose move is
`unordered_equal` to an earlier kept entry's move. -/
theorem dedupPStack_pairwise (next : List Packed.PEntry) :
    (Packed.dedupPStack next).Pairwise
      (fun f e => unordered_equal f.mv e.mv = false) := by
  suffices h : ∀ (l acc : List Packed.PEntry),
      acc.Pairwise (fun f e => unordered_equal f.mv e.mv = false) →
      (l.foldl Packed.dedupPPush acc).Pairwise
        (fun f e => unordered_equal f.mv e.mv = false) by
    exact h next [] List.Pairwise.nil
  intro l
  induction l with
  | nil =>
    intro acc h
    exact h
  | cons e l ih =>
    intro acc hacc
    rw [List.foldl_cons]
    apply ih
    rw [Packed.dedupPPush]
    split
    · exact hacc
    · rename_i hany
      rw [List.pairwise_append]
      refine ⟨hacc, List.pairwise_singleton _ _, ?_⟩
      intro f hf g hg
      rw [List.mem_singleton.mp hg]
      simp only [List.any_eq_true, not_exists, not_and] at hany
      have := hany f hf
      simpa using this

/-- Packed search: deduplicating a non-empty frontier yields a non-empty
frontier. -/
theorem dedupPStack_ne_nil (next : List Packed.PEntry) (h : next ≠ []) :
    Packed.dedupPStack next ≠ [] := by
  cases next with
  | nil => exact absurd rfl h
  | cons e l =>
    rw [Packed.dedupPStack, List.foldl_cons]
    have hstart : Packed.dedupPPush [] e = [e] := by
      rw [Packed.dedupPPush]
      simp
    rw [hstart]
    suffices hs : ∀ (l2 acc : List Packed.PEntry),
        acc ≠ [] → l2.foldl Packed.dedupPPush acc ≠ [] by
      exact hs l [e] (by simp)
    intro l2
    induction l2 with
    | nil =>
      intro acc hacc
      exact hacc
    | cons f l2 ih =>
      intro acc hacc
      rw [List.foldl_cons]
      apply ih
      rw [Packed.dedupPPush]
      split
      · exact hacc
      · simp

/-- Loop invariant of the packed full-move search, mirroring `genLoop_spec`:
the returned result list has one uniform length and its entries are pairwise
non-`unordered_equal` in both directions. -/
theorem genPLoop_spec (fuel : Nat) :
    ∀ (stack : List Packed.PEntry) (k best : Nat) (results : List (List (Nat × Nat))),
    stack ≠ [] →
    (∀ e ∈ stack, e.mv.length = k) →
    stack.Pairwise (fun f e => unordered_equal f.mv e.mv = false
      ∧ unordered_equal e.mv f.mv = false) →
    k + fuel ≤ 8 →
    best ≤ k → (best = k → results = []) →
    (∀ m ∈ results, m.length = best) →
    results.Pairwise (fun m1 m2 => unordered_equal m1 m2 = false
      ∧ unordered_equal m2 m1 = false) →
    ∃ j, j ≤ 8
      ∧ (∀ m ∈ (Packed.genPLoop fuel stack best results).2, m.length = j)
      ∧ (Packed.genPLoop fuel stack best results).2.Pairwise
          (fun m1 m2 => unordered_equal m1 m2 = false ∧ unordered_equal m2 m1 = false) := by
  induction fuel with
  | zero =>
    intro stack k best results _ _ _ hk8 hbk _ hreslen hrespw
    exact ⟨best, by omega, hreslen, hrespw⟩
  | succ fuel ih =>
    intro stack k best results hne hlen hpw hk8 hbk hres hreslen hrespw
    have hproc := processPStack_spec stack k best results hne hlen hbk hres
    have hmaplen : ∀ m ∈ stack.reverse.map (fun e => e.mv), m.length = k := by
      intro m hm
      obtain ⟨e, he, hem⟩ := List.mem_map.mp hm
      rw [← hem]
      exact hlen e (List.mem_reverse.mp he)
    have hmappw : (stack.reverse.map (fun e => e.mv)).Pairwise
        (fun m1 m2 => unordered_equal m1 m2 = false ∧ unordered_equal m2 m1 = false) := by
      rw [List.pairwise_map]
      rw [List.pairwise_reverse]
      exact hpw.imp (fun h => ⟨h.2, h.1⟩)
    rw [Packed.genPLoop, hproc]
    by_cases hemp : (stack.reverse.flatMap genPChildren).isEmpty
    · simp only [hemp]
      exact ⟨k, by omega, hmaplen, hmappw⟩
    · simp only [hemp]
      set next := stack.reverse.flatMap genPChildren with hnext
      have hnextne : next ≠ [] := by
        intro hcon
        rw [hcon] at hemp
        exact hemp rfl
      have hchlen : ∀ e ∈ next, e.mv.length = k + 1 := by
        intro e he
        obtain ⟨f, hf, hef⟩ := List.mem_flatMap.mp he
        rw [genPChildren_mv_length f e hef, hlen f (List.mem_reverse.mp hf)]
      have hstacklen : ∀ e ∈ Packed.dedupPStack next, e.mv.length = k + 1 := by
        intro e he
        exact hchlen e (dedupPStack_mem next e he)
      have hstackpw : (Packed.dedupPStack next).Pairwise
          (fun f e => unordered_equal f.mv e.mv = false
            ∧ unordered_equal e.mv f.mv = false) := by
        apply List.Pairwise.imp_of_mem ?_ (dedupPStack_pairwise next)
        intro f e hf he h1
        refine ⟨h1, ?_⟩
        cases h2 : unordered_equal e.mv f.mv with
        | false => rfl
        | true =>
          exfalso
          have hsym := unordered_equal_symm_of_length_eq e.mv f.mv
            (by rw [hstacklen e he]; omega) (by rw [hstacklen f hf]; omega)
            (by rw [hstacklen e he, hstacklen f hf]) h2
          rw [hsym] at h1
          cases h1
      exact ih (Packed.dedupPStack next) (k + 1) k (stack.reverse.map (fun e => e.mv))
        (dedupPStack_ne_nil next hnextne) hstacklen hstackpw (by omega) (by omega)
        (by omega) hmaplen hmappw

/-- C8: on `Move`s of equal half-move count (`Move` holds at most 4
half-moves), `unordered_equal` is reflexive, symmetric and transitive; and in
both implementations — the array `generage_moves` of `src/game.rs` and the
bit-packed `generate_moves` of `src/backgammon/board.rs` — the list returned
by the full-move generator contains no two entries that are `unordered_equal`
in either direction. -/
theorem c8_unordered_equal_equivalence_and_no_duplicates :
    (∀ a : List HalfMove, a.length ≤ 4 → unordered_equal a a = true)
    ∧ (∀ a b : List HalfMove, a.length ≤ 4 → b.length ≤ 4 → a.length = b.length →
        unordered_equal a b = true → unordered_equal b a = true)
    ∧ (∀ a b c : List HalfMove, b.length ≤ 4 → c.length ≤ 4 →
        unordered_equal a b = true → unordered_equal b c = true →
        unordered_equal a c = true)
    ∧ (∀ (b : Board) (d : Dice),
        (b.generage_moves d).Pairwise
          (fun m1 m2 => unordered_equal m1 m2 = false
            ∧ unordered_equal m2 m1 = false))
    ∧ (∀ (pb : Packed.PBoard) (d : Nat),
        (pb.generate_moves d).Pairwise
          (fun m1 m2 => unordered_equal m1 m2 = false
            ∧ unordered_equal m2 m1 = false)) := by
  refine ⟨?_, ?_, ?_, ?_, ?_⟩
  · intro a ha
    rw [unordered_equal_iff_counts a a (by omega)]
    intro y
    exact le_refl _
  · intro a b ha hb hlen h
    exact unordered_equal_symm_of_length_eq a b (by omega) (by omega) hlen h
  · intro a b c hb hc hab hbc
    rw [unordered_equal_iff_counts a b (by omega)] at hab
    rw [unordered_equal_iff_counts b c (by omega)] at hbc
    rw [unordered_equal_iff_counts a c (by omega)]
    intro y
    exact le_trans (hab y) (hbc y)
  · intro b d
    rw [Board.generage_moves]
    obtain ⟨j, _, _, hpw⟩ := genLoop_spec 5 [⟨d, b, []⟩] 0 0 []
      (by simp) (by intro e he; rw [List.mem_singleton.mp he]; rfl)
      (List.pairwise_singleton _ _)
      (by omega) (le_refl 0) (fun _ => rfl) (by intro m hm; cases hm) List.Pairwise.nil
    exact hpw
  · intro pb d
    rw [Packed.PBoard.generate_moves]
    obtain ⟨j, _, _, hpw⟩ := genPLoop_spec 5 [⟨d, pb, []⟩] 0 0 []
      (by simp) (by intro e he; rw [List.mem_singleton.mp he]; rfl)
      (List.pairwise_singleton _ _)
      (by omega) (le_refl 0) (fun _ => rfl) (by intro m hm; cases hm) List.Pairwise.nil
    exact hpw

/-- C8 (witness): the equivalence-relation properties applied at concrete
moves, and the no-duplicates property of both generators' output on concrete
inputs: the overshoot scenario board with dice (6,1) for the array
implementation, and the off-by-one board with the packed double (1,1) for
the packed implementation. -/
theorem c8_unordered_equal_equivalence_and_no_duplicates_witness :
    unordered_equal [HalfMove.mk (Pos.Point 0) (Pos.Point 1)]
        [HalfMove.mk (Pos.Point 0) (Pos.Point 1)] = true
    ∧ (unordered_equal
        [HalfMove.mk (Pos.Point 0) (Pos.Point 1), HalfMove.mk (Pos.Point 2) (Pos.Point 3)]
        [HalfMove.mk (Pos.Point 2) (Pos.Point 3), HalfMove.mk (Pos.Point 0) (Pos.Point 1)]
          = true →
       unordered_equal
        [HalfMove.mk (Pos.Point 2) (Pos.Point 3), HalfMove.mk (Pos.Point 0) (Pos.Point 1)]
        [HalfMove.mk (Pos.Point 0) (Pos.Point 1), HalfMove.mk (Pos.Point 2) (Pos.Point 3)]
          = true)
    ∧ (bearOffOvershootBoard.generage_moves (Dice.new 6 1)).Pairwise
        (fun m1 m2 => unordered_equal m1 m2 = false ∧ unordered_equal m2 m1 = false)
    ∧ (offByOneBoardPacked.generate_moves (Packed.from_numbers 1 1)).Pairwise
        (fun m1 m2 => unordered_equal m1 m2 = false ∧ unordered_equal m2 m1 = false) :=
  ⟨c8_unordered_equal_equivalence_and_no_duplicates.1 _ (by decide),
   c8_unordered_equal_equivalence_and_no_duplicates.2.1 _ _
     (by decide) (by decide) (by decide),
   c8_unordered_equal_equivalence_and_no_duplicates.2.2.2.1 bearOffOvershootBoard
     (Dice.new 6 1),
   c8_unordered_equal_equivalence_and_no_duplicates.2.2.2.2 offByOneBoardPacked
     (Packed.from_numbers 1 1)⟩

end Backgammon
